import Mathlib

/-!
Verification development for the mph package: a minimal perfect hash table over
strings, in two source variants (an FNV-1a fingerprint variant and a Bloom-filter
variant).  Go slices become Lean lists, Go machine integers become `Nat`/`Int`
with explicit `% 2 ^ w` where conversions truncate, the `float32` load factor is
modelled by exact rationals, and Go runtime panics (integer division by zero,
index out of range, negative `make` length) are modelled by `Option`/`Except`
failure results.
-/

/-- Byte strings: Go strings viewed as their byte sequences. -/
abbrev Str := List Nat

/-- Modelled from the spec: the seeded placement hash (`murmurSeed.hash`) lives in
a source file that is absent from the repository snapshot; the spec treats it as a
black-box deterministic family `H(seed, s) -> u32` whose exact mixing formula is an
implementation choice.  The development is therefore parameterized over an
arbitrary such function; every use site reduces the value modulo a table length,
exactly as the source does. -/
abbrev HashFam := Nat → Str → Nat

/-- FNV-1a offset basis (source constant `offset64`). -/
def offset64 : Nat := 14695981039346656037

/-- FNV-1a prime (source constant `prime64`). -/
def prime64 : Nat := 1099511628211

/-- Inline FNV-1a hash from the source: `hash ^= uint64(c); hash *= prime64`,
where `c` ranges over the bytes of the input and arithmetic is on `uint64`. -/
def fnv64a (data : Str) : Nat :=
  data.foldl (fun hash c => Nat.xor hash (c % 256) * prime64 % 2 ^ 64) offset64

/-- The Table structure of the fingerprint variant (src/mph.go). -/
structure Table where
  keyHashes : List Nat
  level0 : List Nat
  level0Len : Nat
  level1 : List Nat
  level1Len : Nat
  deriving DecidableEq, Repr

/-- Codec version byte. -/
def ver : Nat := 1

/-- Seed-attempt cap of the Bloom variant (source constant `maxSeedAttempts`). -/
def maxSeedAttempts : Nat := 100000000

/-- Load-factor clamping from both Build variants:
`if loadFactor > 1.0 || loadFactor == 0.0 { loadFactor = 1.0 }`. -/
def clampLF (lf : ℚ) : ℚ := if 1 < lf ∨ lf = 0 then 1 else lf

/-- Go's `tableLen := int(float32(len(keys)) / loadFactor)`: the exact rational
`N / lf` truncated toward zero.  Written on the numerator and denominator of the
reduced fraction (`N / (num/den) = N*den / num`, and `Int.tdiv` is exactly
truncation toward zero), which the kernel can evaluate. -/
def goTruncDiv (N : Nat) (lf : ℚ) : Int :=
  Int.tdiv ((N : Int) * (lf.den : Int)) lf.num

/-- The load-factor decay `loadFactor *= 0.9` of the Bloom variant's retry loop:
multiplication of `lf` by `9/10`, written on the numerator and denominator so
that the kernel can evaluate it (see `decayLF_eq`). -/
def decayLF (lf : ℚ) : ℚ := mkRat (lf.num * 9) (lf.den * 10)

/-- The source's `indexBucket`: a first-level slot index and the key indices that
hashed to it. -/
structure indexBucket where
  n : Nat
  vals : List Nat
  deriving DecidableEq, Repr

/-- One insertion step of sorting buckets by size, descending. -/
def insertBySize (b : indexBucket) : List indexBucket → List indexBucket
  | [] => [b]
  | c :: cs =>
    if c.vals.length < b.vals.length then b :: c :: cs else c :: insertBySize b cs

/-- `sort.Sort(bySize(buckets))`: sort by bucket size, descending.  Go's sort is
an unspecified comparison sort; the spec leaves tie-breaking unspecified, so any
sort by the `bySize` ordering is a faithful model. -/
def sortBySize : List indexBucket → List indexBucket
  | [] => []
  | b :: bs => insertBySize b (sortBySize bs)

/-- `sparseBuckets[n] = append(sparseBuckets[n], i)` for one key index. -/
def addToBucket (sb : List (List Nat)) (n i : Nat) : List (List Nat) :=
  sb.set n (sb.getD n [] ++ [i])

/-- The first-level bucketing loop of Build: for each key index `i` in order,
append `i` to bucket `H(0, keys[i]) mod m0`. -/
def sparseBuckets (H : HashFam) (keys : List Str) (m0 : Nat) : List (List Nat) :=
  (List.range keys.length).foldl
    (fun sb i => addToBucket sb (H 0 (keys.getD i []) % m0) i)
    (List.replicate m0 [])

/-- The non-empty buckets, in first-level index order (the `for n, vals := range
sparseBuckets` loop of Build). -/
def bucketList (H : HashFam) (keys : List Str) (m0 : Nat) : List indexBucket :=
  (List.range m0).filterMap (fun n =>
    let vals := (sparseBuckets H keys m0).getD n []
    if vals = [] then none else some ⟨n, vals⟩)

/-- Specification view of bucket `n`: the key indices whose primary hash lands on
`n`, in increasing order. -/
def bucketVals (H : HashFam) (keys : List Str) (m0 n : Nat) : List Nat :=
  (List.range keys.length).filter (fun i => H 0 (keys.getD i []) % m0 = n)

/-- The second-level slot of key index `i` under `seed`:
`int(seed.hash(keys[i])) % level1Len`. -/
def slotH (H : HashFam) (keys : List Str) (m1 seed i : Nat) : Nat :=
  H seed (keys.getD i []) % m1

/-- Result of one seed trial: on success the updated occupancy and level1 arrays;
on failure the rolled-back occupancy together with the (not rolled back) level1. -/
inductive TrialRes where
  | ok (occ : List Bool) (lvl : List Nat)
  | fail (occ : List Bool) (lvl : List Nat)
  deriving DecidableEq, Repr

/-- The rollback of a failed trial: `for _, n := range tmpOcc { occ[n] = false }`. -/
def clearOcc (tmp : List Nat) (occ : List Bool) : List Bool :=
  tmp.foldl (fun o n => o.set n false) occ

/-- One seed trial of the fingerprint variant's placement loop (the body after the
`trySeed` label): walk the bucket members; on an occupied slot roll back the
occupancy bits set during this trial and fail; otherwise mark the slot, log it in
`tmpOcc`, and store `uint32(i)` in level1. -/
def trySeed (H : HashFam) (keys : List Str) (m1 seed : Nat) :
    List Nat → List Bool → List Nat → List Nat → TrialRes
  | [], occ, lvl, _ => .ok occ lvl
  | i :: rest, occ, lvl, tmp =>
    let n := slotH H keys m1 seed i
    if occ.getD n false then .fail (clearOcc tmp occ) lvl
    else trySeed H keys m1 seed rest (occ.set n true) (lvl.set n (i % 2 ^ 32)) (tmp ++ [n])

/-- The seed search of the fingerprint variant: seeds are tried from 0 upward,
incrementing modulo `2 ^ 32` (the seed is a `uint32`).  The fuel of `2 ^ 32`
covers every possible seed once; if all fail the Go loop cycles forever, which is
modelled by `none`. -/
def findSeed (H : HashFam) (keys : List Str) (m1 : Nat) :
    Nat → Nat → List Nat → List Bool → List Nat → Option (Nat × List Bool × List Nat)
  | 0, _, _, _, _ => none
  | fuel + 1, seed, vals, occ, lvl =>
    match trySeed H keys m1 seed vals occ lvl [] with
    | .ok occ₂ lvl₂ => some (seed, occ₂, lvl₂)
    | .fail occ₂ lvl₂ => findSeed H keys m1 fuel ((seed + 1) % 2 ^ 32) vals occ₂ lvl₂

/-- The mutable scratch state of the placement loop. -/
structure PlaceState where
  occ : List Bool
  level1 : List Nat
  level0 : List Nat
  deriving DecidableEq, Repr

/-- The scratch state at loop entry: `occ` all false, `level1` and `level0`
zero-initialized by `make`. -/
def initState (m0 m1 : Nat) : PlaceState :=
  ⟨List.replicate m1 false, List.replicate m1 0, List.replicate m0 0⟩

/-- Placement of one bucket: find a seed, then record it in `level0[bucket.n]`. -/
def placeBucket (H : HashFam) (keys : List Str) (m1 : Nat) (st : PlaceState)
    (b : indexBucket) : Option PlaceState :=
  match findSeed H keys m1 (2 ^ 32) 0 b.vals st.occ st.level1 with
  | none => none
  | some (seed, occ₂, lvl₂) => some ⟨occ₂, lvl₂, st.level0.set b.n seed⟩

/-- The `for _, bucket := range buckets` placement loop. -/
def placeAll (H : HashFam) (keys : List Str) (m1 : Nat) :
    List indexBucket → PlaceState → Option PlaceState
  | [], st => some st
  | b :: bs, st =>
    match placeBucket H keys m1 st b with
    | none => none
    | some st₂ => placeAll H keys m1 bs st₂

/-- Build of the fingerprint variant (src/mph.go).  `none` models a Go runtime
panic (negative `make` length, or `% 0` when the level-0 array is empty and there
is at least one key) or divergence of the unbounded seed search. -/
def Build (H : HashFam) (keys : List Str) (loadFactor : ℚ) : Option Table :=
  let lf := clampLF loadFactor
  let t := goTruncDiv keys.length lf
  if t < 0 then none
  else
    let tableLen := t.toNat
    let level0Len := tableLen / 4
    let level1Len := tableLen
    if keys.length ≠ 0 ∧ level0Len = 0 then none
    else
      match placeAll H keys level1Len (sortBySize (bucketList H keys level0Len))
          (initState level0Len level1Len) with
      | none => none
      | some st =>
        some ⟨keys.map fnv64a, st.level0, level0Len, st.level1, level1Len⟩

/-- Lookup of the fingerprint variant.  `none` models the Go runtime panics of the
source on degenerate tables: `% 0` when a length field is zero and out-of-range
indexing when a stored index exceeds an array length. -/
def Lookup (H : HashFam) (t : Table) (s : Str) : Option (Nat × Bool) :=
  if t.level0Len = 0 then none
  else
    match t.level0[H 0 s % t.level0Len]? with
    | none => none
    | some seed =>
      if t.level1Len = 0 then none
      else
        match t.level1[H seed s % t.level1Len]? with
        | none => none
        | some n =>
          match t.keyHashes[n]? with
          | none => none
          | some kh => some (n, decide (fnv64a s = kh))

/-- Little-endian encoding of a value into `w` bytes (binary.LittleEndian.PutUint). -/
def encodeLE : Nat → Nat → List Nat
  | 0, _ => []
  | w + 1, v => v % 256 :: encodeLE w (v / 256)

/-- Little-endian decoding of `w` bytes (binary.LittleEndian.Uint); absent bytes
read as zero, matching the fact that the source never reads past a validated
length. -/
def decodeLE : Nat → List Nat → Nat
  | 0, _ => 0
  | w + 1, l => l.headD 0 + 256 * decodeLE w l.tail

/-- Consecutive `w`-byte little-endian encodings of a vector of values. -/
def concatMapEnc (w : Nat) (xs : List Nat) : List Nat :=
  (xs.map (encodeLE w)).flatten

/-- MarshalBinary of the fingerprint variant: version byte, then the key-hash
count, `level0Len` and `level1Len` as `uint64`, then the key hashes as `uint64`
and the two level arrays as `uint32`, all little-endian.  The sequential writes
into the pre-sized buffer are modelled by concatenation (for a Table whose length
fields agree with its arrays, as Build guarantees, the two coincide byte for
byte). -/
def MarshalBinary (t : Table) : List Nat :=
  ver % 256 ::
    (encodeLE 8 t.keyHashes.length ++ encodeLE 8 t.level0Len ++ encodeLE 8 t.level1Len ++
      concatMapEnc 8 t.keyHashes ++ concatMapEnc 4 t.level0 ++ concatMapEnc 4 t.level1)

/-- Reading `cnt` consecutive `w`-byte little-endian values (the source only
reads within bounds it has checked; out-of-range reads are modelled as panics
by explicit guards in UnmarshalBinary, before any read happens). -/
def readVec (w cnt : Nat) (l : List Nat) : List Nat :=
  (List.range cnt).map (fun i => decodeLE w (l.drop (w * i)))

/-- Two's-complement reading of a 64-bit word as a Go `int`, the effect of the
source's `int(binary.LittleEndian.Uint64(...))` on a 64-bit platform. -/
def toInt64 (n : Nat) : Int :=
  if n % 2 ^ 64 < 2 ^ 63 then (n % 2 ^ 64 : Nat) else (n % 2 ^ 64 : Nat) - 2 ^ 64

/-- Wrapping of a 64-bit signed Go `int` computation: the representative of x
mod 2^64 in [-2^63, 2^63). -/
def wrap64 (x : Int) : Int := (x + 2 ^ 63) % 2 ^ 64 - 2 ^ 63

/-- The length bound UnmarshalBinary of the fingerprint variant computes:
Go evaluates `(1+keyHashesLen+1+1)*bpw + (level0Len+level1Len)*bphw + 1` in
64-bit `int` arithmetic (each step wraps; wrapping the whole expression once is
the same value mod 2^64) on the two's-complement readings of the three length
fields at offsets 1, 9 and 17. -/
def unmarshalSum (data : List Nat) : Int :=
  wrap64 ((1 + toInt64 (decodeLE 8 (data.drop 1)) + 1 + 1) * 8 +
    (toInt64 (decodeLE 8 (data.drop 9)) + toInt64 (decodeLE 8 (data.drop 17))) * 4 + 1)

/-- UnmarshalBinary of the fingerprint variant.  `.ok none` models an error
return, `.error ()` a Go runtime panic, `.ok (some t)` success.  The source
validates the 25-byte header bound, the version byte, and that the buffer
length is not below the `int`-wrapped computed total; it then runs
`make([]uint64, keyHashesLen)` (panic when the count read as `int` is
negative) and copy loops whose reads panic at the first index past the buffer
(`make` itself already panics in Go when the huge count exceeds the allocator
bound; either way the observable is a panic, and a buffer long enough to make
a huge count genuinely fit cannot exist in a 64-bit address space), and the
same for `level0` and `level1`. -/
def UnmarshalBinary (data : List Nat) : Except Unit (Option Table) :=
  if data.length < 25 then .ok none
  else if data.getD 0 0 ≠ ver then .ok none
  else
    let K := toInt64 (decodeLE 8 (data.drop 1))
    let m0 := toInt64 (decodeLE 8 (data.drop 9))
    let m1 := toInt64 (decodeLE 8 (data.drop 17))
    if (data.length : Int) < unmarshalSum data then .ok none
    else if K < 0 then .error ()
    else if data.length < 25 + 8 * K.toNat then .error ()
    else if m0 < 0 then .error ()
    else if data.length < 25 + 8 * K.toNat + 4 * m0.toNat then .error ()
    else if m1 < 0 then .error ()
    else if data.length < 25 + 8 * K.toNat + 4 * m0.toNat + 4 * m1.toNat then .error ()
    else
      let payload := data.drop 25
      .ok (some ⟨readVec 8 K.toNat payload,
        readVec 4 m0.toNat (payload.drop (8 * K.toNat)), m0.toNat,
        readVec 4 m1.toNat ((payload.drop (8 * K.toNat)).drop (4 * m0.toNat)), m1.toNat⟩)

/-- The Table structure of the Bloom variant (src/unnamed/part_000).  Modelled
from the spec: the `bloom.Filter` is an external membership oracle whose internals
are out of scope, so the filter is an opaque type parameter. -/
structure TableB (Φ : Type) where
  filter : Φ
  level0 : List Nat
  level0Len : Nat
  level1 : List Nat
  level1Len : Nat
  deriving DecidableEq, Repr

/-- One seed trial of the Bloom variant: as `trySeed`, except that an occupied
slot is tolerated when the same key was already seen during this trial (the
`seenKeys` map). -/
def trySeedB (H : HashFam) (keys : List Str) (m1 seed : Nat) :
    List Nat → List Bool → List Nat → List Nat → List Str → TrialRes
  | [], occ, lvl, _, _ => .ok occ lvl
  | i :: rest, occ, lvl, tmp, seen =>
    let key := keys.getD i []
    let n := slotH H keys m1 seed i
    if occ.getD n false ∧ ¬ seen.contains key then .fail (clearOcc tmp occ) lvl
    else
      trySeedB H keys m1 seed rest (occ.set n true) (lvl.set n (i % 2 ^ 32))
        (tmp ++ [n]) (key :: seen)

/-- The seed search of the Bloom variant: `seed++` after a failed trial and
`return nil` once the seed exceeds `maxSeedAttempts`.  The cap fires long before
the `uint32` seed could wrap, so the increment is a plain successor. -/
def findSeedB (H : HashFam) (keys : List Str) (m1 : Nat) (vals : List Nat) :
    Nat → List Bool → List Nat → Option (Nat × List Bool × List Nat)
  | seed, occ, lvl =>
    match trySeedB H keys m1 seed vals occ lvl [] [] with
    | .ok occ₂ lvl₂ => some (seed, occ₂, lvl₂)
    | .fail occ₂ lvl₂ =>
      if maxSeedAttempts < seed + 1 then none
      else findSeedB H keys m1 vals (seed + 1) occ₂ lvl₂
  termination_by seed => maxSeedAttempts + 1 - seed
  decreasing_by simp only [maxSeedAttempts] at *; omega

/-- Placement of one bucket in the Bloom variant. -/
def placeBucketB (H : HashFam) (keys : List Str) (m1 : Nat) (st : PlaceState)
    (b : indexBucket) : Option PlaceState :=
  match findSeedB H keys m1 b.vals 0 st.occ st.level1 with
  | none => none
  | some (seed, occ₂, lvl₂) => some ⟨occ₂, lvl₂, st.level0.set b.n seed⟩

/-- The placement loop of the Bloom variant. -/
def placeAllB (H : HashFam) (keys : List Str) (m1 : Nat) :
    List indexBucket → PlaceState → Option PlaceState
  | [], st => some st
  | b :: bs, st =>
    match placeBucketB H keys m1 st b with
    | none => none
    | some st₂ => placeAllB H keys m1 bs st₂

/-- buildInternal of the Bloom variant.  `Except.error ()` models a Go runtime
panic, `Except.ok none` the `return nil` taken when a bucket exhausts the seed
cap, `Except.ok (some t)` a completed table. -/
def buildInternalB {Φ : Type} (H : HashFam) (keys : List Str) (lf : ℚ) (F : Φ) :
    Except Unit (Option (TableB Φ)) :=
  let t := goTruncDiv keys.length lf
  if t < 0 then .error ()
  else
    let tableLen := t.toNat
    let level0Len := tableLen / 4
    let level1Len := tableLen
    if keys.length ≠ 0 ∧ level0Len = 0 then .error ()
    else
      match placeAllB H keys level1Len (sortBySize (bucketList H keys level0Len))
          (initState level0Len level1Len) with
      | none => .ok none
      | some st => .ok (some ⟨F, st.level0, level0Len, st.level1, level1Len⟩)

/-- The retry loop of the Bloom variant's Build: rebuild while buildInternal
returns nil, decaying the load factor by 0.9 and giving up below 0.1.  The result
mirrors Go's `(*Table, error)` pair. -/
def buildLoop {Φ : Type} (H : HashFam) (keys : List Str) (F : Φ) (lf : ℚ) :
    Except Unit (Option (TableB Φ) × Option String) :=
  match buildInternalB H keys lf F with
  | .error () => .error ()
  | .ok (some t) => .ok (some t, none)
  | .ok none =>
    if h : decayLF lf < mkRat 1 10 then .ok (none, some "Failed creating table")
    else buildLoop H keys F (decayLF lf)
  termination_by (Int.floor (lf * 100)).toNat
  decreasing_by
    have hd : (lf.den : ℚ) ≠ 0 := Nat.cast_ne_zero.mpr lf.den_nz
    have key : (lf.num : ℚ) = lf * (lf.den : ℚ) := by
      have h1 := Rat.num_div_den lf
      rw [div_eq_iff hd] at h1
      exact h1
    have hd10 : (lf.den : ℚ) * 10 ≠ 0 := mul_ne_zero hd (by norm_num)
    have hdec : decayLF lf = lf * (9 / 10) := by
      rw [decayLF, Rat.mkRat_eq_div]
      push_cast
      rw [div_eq_iff hd10, key]
      ring
    have hml : (mkRat 1 10 : ℚ) = 1 / 10 := by
      rw [Rat.mkRat_eq_div]
      norm_num
    rw [hdec, hml] at h
    have h0 : (1 : ℚ) / 10 ≤ lf * (9 / 10) := not_lt.mp h
    have h1 : (1 : ℚ) / 9 ≤ lf := by linarith
    have h2 : lf * (9 / 10) * 100 + 1 ≤ lf * 100 := by linarith
    have h3 : Int.floor (lf * (9 / 10) * 100) < Int.floor (lf * 100) := by
      have h5 := Int.floor_le_floor h2
      rw [Int.floor_add_one] at h5
      omega
    have h4 : (0 : ℤ) ≤ Int.floor (lf * (9 / 10) * 100) := by
      apply Int.floor_nonneg.mpr; linarith
    rw [hdec]
    omega

/-- Build of the Bloom variant.  Modelled from the spec: the construction and
population of the external Bloom filter is out of scope, so the populated oracle
is received as the opaque value `F`. -/
def BuildB {Φ : Type} (H : HashFam) (keys : List Str) (F : Φ) (lf : ℚ) :
    Except Unit (Option (TableB Φ) × Option String) :=
  buildLoop H keys F (clampLF lf)

/-- Lookup of the Bloom variant, parameterized over the external oracle's `Has`
operation.  `none` models the same division-by-zero and indexing panics as
`Lookup`. -/
def LookupB {Φ : Type} (H : HashFam) (Has : Φ → Str → Bool) (t : TableB Φ)
    (s : Str) : Option (Nat × Bool) :=
  if t.level0Len = 0 then none
  else
    match t.level0[H 0 s % t.level0Len]? with
    | none => none
    | some seed =>
      if t.level1Len = 0 then none
      else
        match t.level1[H seed s % t.level1Len]? with
        | none => none
        | some n => some (n, Has t.filter s)

/-- The length bound UnmarshalBinary of the Bloom variant computes: Go evaluates
`(1+1+1)*bpw + bloomFilterLen + (level0Len+level1Len)*bphw + 1` in 64-bit `int`
arithmetic on the two's-complement readings of the three length fields. -/
def unmarshalSumB (data : List Nat) : Int :=
  wrap64 ((1 + 1 + 1) * 8 + toInt64 (decodeLE 8 (data.drop 1)) +
    (toInt64 (decodeLE 8 (data.drop 9)) + toInt64 (decodeLE 8 (data.drop 17))) * 4 + 1)

/-- UnmarshalBinary of the Bloom variant (src/unnamed/part_000).  Modelled from
the spec for the filter part: `decF` stands for the external
`bloom.Filter.UnmarshalBinary`, absent from src/; `decF bytes = none` models it
returning an error, which the source propagates as its own error return.  The
three header checks mirror the fingerprint variant; the slice
`data[25 : 25+bloomFilterLen]` panics when the count is negative or reaches past
the buffer, and the `level0`/`level1` makes and copy loops panic as in the
fingerprint variant. -/
def UnmarshalBinaryB {Φ : Type} (decF : List Nat → Option Φ) (data : List Nat) :
    Except Unit (Option (TableB Φ)) :=
  if data.length < 25 then .ok none
  else if data.getD 0 0 ≠ ver then .ok none
  else
    let blen := toInt64 (decodeLE 8 (data.drop 1))
    let m0 := toInt64 (decodeLE 8 (data.drop 9))
    let m1 := toInt64 (decodeLE 8 (data.drop 17))
    if (data.length : Int) < unmarshalSumB data then .ok none
    else if blen < 0 ∨ (data.length : Int) < 25 + blen then .error ()
    else
      match decF ((data.drop 25).take blen.toNat) with
      | none => .ok none
      | some F =>
        if m0 < 0 then .error ()
        else if data.length < 25 + blen.toNat + 4 * m0.toNat then .error ()
        else if m1 < 0 then .error ()
        else if data.length < 25 + blen.toNat + 4 * m0.toNat + 4 * m1.toNat then .error ()
        else
          let rest := (data.drop 25).drop blen.toNat
          .ok (some ⟨F, readVec 4 m0.toNat rest, m0.toNat,
            readVec 4 m1.toNat (rest.drop (4 * m0.toNat)), m1.toNat⟩)

/-- Between bucket placements: every already-placed key occupies its slot and
level1 records its (truncated) index there. -/
def PlacedInv (H : HashFam) (keys : List Str) (m1 : Nat) (done : List indexBucket)
    (st : PlaceState) : Prop :=
  ∀ B ∈ done, ∀ i ∈ B.vals,
    st.occ.getD (slotH H keys m1 (st.level0.getD B.n 0) i) false = true ∧
    st.level1.getD (slotH H keys m1 (st.level0.getD B.n 0) i) 0 = i % 2 ^ 32

/-- Between bucket placements: the occupancy bitmap is set at exactly the slots
assigned to keys of already-placed buckets. -/
def OccExact (H : HashFam) (keys : List Str) (m1 : Nat) (done : List indexBucket)
    (st : PlaceState) : Prop :=
  ∀ n, st.occ.getD n false = true ↔
    ∃ B ∈ done, ∃ i ∈ B.vals, slotH H keys m1 (st.level0.getD B.n 0) i = n

/-- A concrete deterministic hash family for witnesses. -/
def h4 : HashFam := fun seed s => s.headD 0 + seed

/-- Four distinct single-byte keys. -/
def k4 : List Str := [[10], [11], [12], [13]]

/-- The table Build produces from `k4` at load factor 1 under `h4`. -/
def tbl4 : Table :=
  ⟨[12638164110811449565, 12638163011299821354, 12638157513741680299,
    12638156414230052088], [0], 1, [2, 3, 0, 1], 4⟩

/-- The marshalled empty Table with one trailing byte appended: a 26-byte buffer
whose declared counts compute a 25-byte total. -/
def d26 : List Nat := MarshalBinary ⟨[], [], 0, [], 0⟩ ++ [0]

/-- A 26-byte buffer declaring 2^61 key hashes: the source's `int` length sum
`(1+2^61+1+1)*8 + 0 + 1` wraps to 25, so the validation passes although the
true requirement is astronomically larger, and the decode then panics (in Go
already in `make([]uint64, 2^61)`) instead of returning an error. -/
def dOv : List Nat := 1 :: (encodeLE 8 (2 ^ 61) ++ encodeLE 8 0 ++ encodeLE 8 0 ++ [0])

/-- A constant hash family: every key of every bucket collides at slot 0, so no
seed can ever place a two-key bucket. -/
def hconst : HashFam := fun _ _ => 0

/-- Two distinct single-byte keys. -/
def k2 : List Str := [[1], [2]]

/-! ### Helper lemmas about list reads and writes -/

theorem getD_set_self {α : Type} (l : List α) {n : Nat} (a d : α) (h : n < l.length) :
    (l.set n a).getD n d = a := by
  rw [List.getD_eq_getElem?_getD, List.getElem?_set_self h]
  rfl

theorem getD_set_ne {α : Type} (l : List α) {m n : Nat} (a d : α) (h : m ≠ n) :
    (l.set m a).getD n d = l.getD n d := by
  rw [List.getD_eq_getElem?_getD, List.getElem?_set_ne h, ← List.getD_eq_getElem?_getD]

theorem getD_set_default {α : Type} (l : List α) (n : Nat) (d : α) :
    (l.set n d).getD n d = d := by
  rcases Nat.lt_or_ge n l.length with h | h
  · exact getD_set_self l d d h
  · rw [List.set_eq_of_length_le h, List.getD_eq_default _ _ h]

theorem getD_replicate {α : Type} (n i : Nat) (a : α) :
    (List.replicate n a).getD i a = a := by
  rw [List.getD_eq_getElem?_getD, List.getElem?_replicate]
  split <;> rfl

theorem set_of_getD {α : Type} (l : List α) (n : Nat) (d : α) (h : l.getD n d = d) :
    l.set n d = l := by
  rcases Nat.lt_or_ge n l.length with h2 | h2
  · apply List.ext_getElem (by simp)
    intro i h3 h4
    rcases eq_or_ne n i with h5 | h5
    · subst h5
      rw [List.getElem_set_self, ← List.getD_eq_getElem l d h2, h]
    · rw [List.getElem_set_ne h5]
  · exact List.set_eq_of_length_le h2

theorem clearOcc_cons (m : Nat) (tmp : List Nat) (occ : List Bool) :
    clearOcc (m :: tmp) occ = clearOcc tmp (occ.set m false) := rfl

theorem clearOcc_length (tmp : List Nat) : ∀ occ : List Bool,
    (clearOcc tmp occ).length = occ.length := by
  induction tmp with
  | nil => intro occ; rfl
  | cons m tmp ih => intro occ; rw [clearOcc_cons, ih, List.length_set]

theorem clearOcc_getD (tmp : List Nat) : ∀ (occ : List Bool) (n : Nat),
    ((clearOcc tmp occ).getD n false = true) ↔ (occ.getD n false = true ∧ n ∉ tmp) := by
  induction tmp with
  | nil => intro occ n; simp [clearOcc]
  | cons m tmp ih =>
    intro occ n
    rw [clearOcc_cons, ih]
    rcases eq_or_ne m n with h | h
    · subst h
      rw [getD_set_default]
      simp
    · rw [getD_set_ne _ _ _ h]
      simp [List.mem_cons, h.symm]

/-! ### Lemmas about one seed trial (fingerprint variant) -/

theorem trySeed_len (H : HashFam) (keys : List Str) (m1 seed : Nat) (vals : List Nat) :
    ∀ occ lvl tmp occ₂ lvl₂,
      (trySeed H keys m1 seed vals occ lvl tmp = .ok occ₂ lvl₂ ∨
        trySeed H keys m1 seed vals occ lvl tmp = .fail occ₂ lvl₂) →
      occ₂.length = occ.length ∧ lvl₂.length = lvl.length := by
  induction vals with
  | nil =>
    intro occ lvl tmp occ₂ lvl₂ h
    rcases h with h | h <;> simp [trySeed] at h
    exact ⟨by rw [h.1], by rw [h.2]⟩
  | cons i rest ih =>
    intro occ lvl tmp occ₂ lvl₂ h
    rcases h with h | h <;> simp only [trySeed] at h <;> split at h
    · simp at h
    · have h2 := ih _ _ _ _ _ (Or.inl h)
      simpa using h2
    · simp only [TrialRes.fail.injEq] at h
      refine ⟨?_, by rw [h.2]⟩
      rw [← h.1, clearOcc_length]
    · have h2 := ih _ _ _ _ _ (Or.inr h)
      simpa using h2

theorem eq_of_getD_bool (l₁ l₂ : List Bool) (hlen : l₁.length = l₂.length)
    (h : ∀ n, l₁.getD n false = l₂.getD n false) : l₁ = l₂ := by
  apply List.ext_getElem hlen
  intro n h₁ h₂
  have := h n
  rwa [List.getD_eq_getElem _ _ h₁, List.getD_eq_getElem _ _ h₂] at this

theorem trySeed_ok_protect (H : HashFam) (keys : List Str) (m1 seed : Nat)
    (vals : List Nat) : ∀ occ lvl tmp occ₂ lvl₂,
    trySeed H keys m1 seed vals occ lvl tmp = .ok occ₂ lvl₂ →
    ∀ n, occ.getD n false = true →
      occ₂.getD n false = true ∧ lvl₂.getD n 0 = lvl.getD n 0 := by
  induction vals with
  | nil =>
    intro occ lvl tmp occ₂ lvl₂ h n hn
    simp [trySeed] at h
    rw [← h.1, ← h.2]
    exact ⟨hn, rfl⟩
  | cons i rest ih =>
    intro occ lvl tmp occ₂ lvl₂ h n hn
    simp only [trySeed] at h
    split at h
    · simp at h
    · rename_i hslot
      have hne : slotH H keys m1 seed i ≠ n := by
        intro he
        rw [he] at hslot
        exact hslot hn
      have h2 := ih _ _ _ _ _ h n (by rwa [getD_set_ne _ _ _ hne])
      rwa [getD_set_ne _ _ _ hne] at h2

theorem trySeed_ok_places (H : HashFam) (keys : List Str) (m1 seed : Nat)
    (hm1 : 0 < m1) (vals : List Nat) : ∀ occ lvl tmp occ₂ lvl₂,
    occ.length = m1 → lvl.length = m1 →
    trySeed H keys m1 seed vals occ lvl tmp = .ok occ₂ lvl₂ →
    ∀ i ∈ vals, occ₂.getD (slotH H keys m1 seed i) false = true ∧
      lvl₂.getD (slotH H keys m1 seed i) 0 = i % 2 ^ 32 := by
  induction vals with
  | nil =>
    intro occ lvl tmp occ₂ lvl₂ _ _ _ i hi
    simp at hi
  | cons j rest ih =>
    intro occ lvl tmp occ₂ lvl₂ hocc hlvl h i hi
    simp only [trySeed] at h
    split at h
    · simp at h
    · rename_i hslot
      rcases List.mem_cons.mp hi with he | hmem
      · subst he
        have hlt : slotH H keys m1 seed i < m1 := Nat.mod_lt _ hm1
        have h2 := trySeed_ok_protect H keys m1 seed rest _ _ _ _ _ h
          (slotH H keys m1 seed i)
          (by rw [getD_set_self _ _ _ (by rw [hocc]; exact hlt)])
        refine ⟨h2.1, ?_⟩
        rw [h2.2, getD_set_self _ _ _ (by rw [hlvl]; exact hlt)]
      · exact ih _ _ _ _ _ (by rw [List.length_set]; exact hocc)
          (by rw [List.length_set]; exact hlvl) h i hmem

theorem trySeed_ok_delta (H : HashFam) (keys : List Str) (m1 seed : Nat)
    (hm1 : 0 < m1) (vals : List Nat) : ∀ occ lvl tmp occ₂ lvl₂,
    occ.length = m1 →
    trySeed H keys m1 seed vals occ lvl tmp = .ok occ₂ lvl₂ →
    ∀ n, (occ₂.getD n false = true ↔
      (occ.getD n false = true ∨ ∃ i ∈ vals, slotH H keys m1 seed i = n)) := by
  induction vals with
  | nil =>
    intro occ lvl tmp occ₂ lvl₂ _ h n
    simp [trySeed] at h
    rw [← h.1]
    simp
  | cons j rest ih =>
    intro occ lvl tmp occ₂ lvl₂ hocc h n
    simp only [trySeed] at h
    split at h
    · simp at h
    · rename_i hslot
      have h2 := ih _ _ _ _ _ (by rw [List.length_set]; exact hocc) h n
      rw [h2]
      rcases eq_or_ne (slotH H keys m1 seed j) n with he | hne
      · rw [← he, getD_set_self _ _ _ (by rw [hocc]; exact Nat.mod_lt _ hm1)]
        constructor
        · intro _
          exact Or.inr ⟨j, List.mem_cons_self j rest, rfl⟩
        · intro _
          exact Or.inl rfl
      · rw [getD_set_ne _ _ _ hne]
        constructor
        · rintro (hl | ⟨i, hi, hs⟩)
          · exact Or.inl hl
          · exact Or.inr ⟨i, List.mem_cons_of_mem _ hi, hs⟩
        · rintro (hl | ⟨i, hi, hs⟩)
          · exact Or.inl hl
          · rcases List.mem_cons.mp hi with he₂ | hmem
            · subst he₂
              exact absurd hs hne
            · exact Or.inr ⟨i, hmem, hs⟩

theorem trySeed_fail_occ (H : HashFam) (keys : List Str) (m1 seed : Nat)
    (vals : List Nat) : ∀ (occ : List Bool) (lvl tmp : List Nat)
      (occ₀ occF : List Bool) (lvlF : List Nat),
    occ.length = occ₀.length →
    (∀ n, occ.getD n false = true ↔
      (occ₀.getD n false = true ∨ (n ∈ tmp ∧ n < occ₀.length))) →
    (∀ m ∈ tmp, occ₀.getD m false = false) →
    trySeed H keys m1 seed vals occ lvl tmp = .fail occF lvlF →
    occF = occ₀ := by
  induction vals with
  | nil =>
    intro occ lvl tmp occ₀ occF lvlF _ _ _ h
    simp [trySeed] at h
  | cons j rest ih =>
    intro occ lvl tmp occ₀ occF lvlF hlen hiff hfresh h
    simp only [trySeed] at h
    split at h
    · rename_i hslot
      simp only [TrialRes.fail.injEq] at h
      rw [← h.1]
      apply eq_of_getD_bool _ _ (by rw [clearOcc_length]; exact hlen)
      intro n
      rw [Bool.eq_iff_iff, clearOcc_getD, hiff n]
      constructor
      · rintro ⟨hl | ⟨hmem, _⟩, hnot⟩
        · exact hl
        · exact absurd hmem hnot
      · intro hl
        refine ⟨Or.inl hl, fun hmem => ?_⟩
        rw [hfresh n hmem] at hl
        simp at hl
    · rename_i hslot
      rw [Bool.not_eq_true] at hslot
      have hfr : occ₀.getD (slotH H keys m1 seed j) false = false := by
        rcases hb : occ₀.getD (slotH H keys m1 seed j) false with _ | _
        · rfl
        · have h2 := (hiff (slotH H keys m1 seed j)).mpr (Or.inl hb)
          rw [hslot] at h2
          simp at h2
      refine ih _ _ _ _ _ _ ?_ ?_ ?_ h
      · rw [List.length_set]
        exact hlen
      · intro n
        rcases eq_or_ne (slotH H keys m1 seed j) n with he | hne
        · subst he
          rcases Nat.lt_or_ge (slotH H keys m1 seed j) occ.length with hin | hout
          · rw [getD_set_self _ _ _ hin, hfr]
            simp [List.mem_append]
            omega
          · rw [List.set_eq_of_length_le hout, List.getD_eq_default _ _ hout, hfr]
            simp [List.mem_append]
            omega
        · rw [getD_set_ne _ _ _ hne, hiff n]
          simp [List.mem_append, List.mem_singleton, hne.symm]
      · intro m hm
        rcases List.mem_append.mp hm with hm₂ | hm₂
        · exact hfresh m hm₂
        · rw [List.mem_singleton.mp hm₂]
          exact hfr

theorem trySeed_fail_protect (H : HashFam) (keys : List Str) (m1 seed : Nat)
    (vals : List Nat) : ∀ (occ : List Bool) (lvl tmp : List Nat)
      (occ₀ occF : List Bool) (lvlF : List Nat),
    (∀ n, occ₀.getD n false = true → occ.getD n false = true) →
    trySeed H keys m1 seed vals occ lvl tmp = .fail occF lvlF →
    ∀ n, occ₀.getD n false = true → lvlF.getD n 0 = lvl.getD n 0 := by
  induction vals with
  | nil =>
    intro occ lvl tmp occ₀ occF lvlF _ h
    simp [trySeed] at h
  | cons j rest ih =>
    intro occ lvl tmp occ₀ occF lvlF hmono h n hn
    simp only [trySeed] at h
    split at h
    · simp only [TrialRes.fail.injEq] at h
      rw [← h.2]
    · rename_i hslot
      rw [Bool.not_eq_true] at hslot
      have hmono₂ : ∀ n₂, occ₀.getD n₂ false = true →
          (occ.set (slotH H keys m1 seed j) true).getD n₂ false = true := by
        intro n₂ hn₂
        have hocc := hmono n₂ hn₂
        have hne₂ : slotH H keys m1 seed j ≠ n₂ := by
          intro he
          rw [he, hocc] at hslot
          simp at hslot
        rw [getD_set_ne _ _ _ hne₂]
        exact hocc
      have hne : slotH H keys m1 seed j ≠ n := by
        intro he
        rw [he, hmono n hn] at hslot
        simp at hslot
      have h2 := ih _ _ _ _ _ _ hmono₂ h n hn
      rwa [getD_set_ne _ _ _ hne] at h2

theorem findSeed_ok (H : HashFam) (keys : List Str) (m1 : Nat) (vals : List Nat) :
    ∀ (fuel seed : Nat) (occ : List Bool) (lvl : List Nat) (s : Nat)
      (occ₂ : List Bool) (lvl₂ : List Nat),
    findSeed H keys m1 fuel seed vals occ lvl = some (s, occ₂, lvl₂) →
    (∃ lvlMid : List Nat, lvlMid.length = lvl.length ∧
      trySeed H keys m1 s vals occ lvlMid [] = .ok occ₂ lvl₂) ∧
    (∀ n, occ.getD n false = true → lvl₂.getD n 0 = lvl.getD n 0) := by
  intro fuel
  induction fuel with
  | zero =>
    intro seed occ lvl s occ₂ lvl₂ h
    simp [findSeed] at h
  | succ fuel ih =>
    intro seed occ lvl s occ₂ lvl₂ h
    simp only [findSeed] at h
    split at h
    · rename_i occ₃ lvl₃ heq
      simp only [Option.some.injEq, Prod.mk.injEq] at h
      obtain ⟨h₁, h₂, h₃⟩ := h
      subst h₁ h₂ h₃
      refine ⟨⟨lvl, rfl, heq⟩, ?_⟩
      intro n hn
      exact (trySeed_ok_protect H keys m1 _ vals _ _ _ _ _ heq n hn).2
    · rename_i occ₃ lvl₃ heq
      have hocc : occ₃ = occ :=
        trySeed_fail_occ H keys m1 seed vals occ lvl [] occ occ₃ lvl₃ rfl
          (by simp) (by simp) heq
      rw [hocc] at h
      have hl3 : lvl₃.length = lvl.length :=
        (trySeed_len H keys m1 seed vals occ lvl [] occ₃ lvl₃ (Or.inr heq)).2
      obtain ⟨⟨lvlMid, hlm, htr⟩, hpr⟩ := ih _ _ _ _ _ _ h
      refine ⟨⟨lvlMid, by rw [hlm, hl3], htr⟩, ?_⟩
      intro n hn
      rw [hpr n hn]
      exact trySeed_fail_protect H keys m1 seed vals occ lvl [] occ occ₃ lvl₃
        (fun _ hx => hx) heq n hn

theorem placeAll_inv (H : HashFam) (keys : List Str) (m0 m1 : Nat) (hm1 : 0 < m1)
    (bs : List indexBucket) : ∀ (done : List indexBucket) (st st' : PlaceState),
    List.Pairwise (fun a b : indexBucket => a.n ≠ b.n) (done ++ bs) →
    (∀ B ∈ done ++ bs, B.n < m0) →
    st.occ.length = m1 → st.level1.length = m1 → st.level0.length = m0 →
    PlacedInv H keys m1 done st → OccExact H keys m1 done st →
    placeAll H keys m1 bs st = some st' →
    (st'.occ.length = m1 ∧ st'.level1.length = m1 ∧ st'.level0.length = m0) ∧
    PlacedInv H keys m1 (done ++ bs) st' ∧ OccExact H keys m1 (done ++ bs) st' := by
  induction bs with
  | nil =>
    intro done st st' _ _ h1 h2 h3 hPl hEx h
    simp only [placeAll, Option.some.injEq] at h
    subst h
    rw [List.append_nil]
    exact ⟨⟨h1, h2, h3⟩, hPl, hEx⟩
  | cons b bs ih =>
    intro done st st' hpw hbn hoc hl1 hl0 hPl hEx h
    simp only [placeAll] at h
    split at h
    · simp at h
    · rename_i st₂ heq
      simp only [placeBucket] at heq
      split at heq
      · simp at heq
      · rename_i p seed occ₂ lvl₂ hfind
        simp only [Option.some.injEq] at heq
        subst heq
        obtain ⟨⟨lvlMid, hlmLen, htr⟩, hprot⟩ :=
          findSeed_ok H keys m1 b.vals _ _ _ _ _ _ _ hfind
        have hlen₂ := trySeed_len H keys m1 seed b.vals _ _ _ _ _ (Or.inl htr)
        have hoc₂ : occ₂.length = m1 := by rw [hlen₂.1, hoc]
        have hlv₂ : lvl₂.length = m1 := by rw [hlen₂.2, hlmLen, hl1]
        have hbnb : b.n < m0 :=
          hbn b (List.mem_append_right done (List.mem_cons_self b bs))
        have hne_done : ∀ B ∈ done, B.n ≠ b.n := fun B hB =>
          (List.pairwise_append.mp hpw).2.2 B hB b (List.mem_cons_self b bs)
        have hl0same : ∀ B ∈ done,
            (st.level0.set b.n seed).getD B.n 0 = st.level0.getD B.n 0 := by
          intro B hB
          exact getD_set_ne _ _ _ (Ne.symm (hne_done B hB))
        have hl0self : (st.level0.set b.n seed).getD b.n 0 = seed :=
          getD_set_self _ _ _ (by rw [hl0]; exact hbnb)
        have hPl₂ : PlacedInv H keys m1 (done ++ [b])
            ⟨occ₂, lvl₂, st.level0.set b.n seed⟩ := by
          intro B hB i hi
          rcases List.mem_append.mp hB with hBd | hBb
          · obtain ⟨hocc_t, hlvl_t⟩ := hPl B hBd i hi
            simp only [hl0same B hBd]
            refine ⟨(trySeed_ok_protect H keys m1 seed b.vals _ _ _ _ _ htr _ hocc_t).1, ?_⟩
            rw [hprot _ hocc_t, hlvl_t]
          · rw [List.mem_singleton.mp hBb]
            simp only [hl0self]
            exact trySeed_ok_places H keys m1 seed hm1 b.vals _ _ _ _ _ hoc
              (by rw [hlmLen, hl1]) htr i (List.mem_singleton.mp hBb ▸ hi)
        have hEx₂ : OccExact H keys m1 (done ++ [b])
            ⟨occ₂, lvl₂, st.level0.set b.n seed⟩ := by
          intro n
          have hdelta := trySeed_ok_delta H keys m1 seed hm1 b.vals _ _ _ _ _ hoc htr n
          simp only []
          rw [hdelta]
          constructor
          · rintro (hl | ⟨i, hi, hs⟩)
            · obtain ⟨B, hB, i, hi, hs⟩ := (hEx n).mp hl
              exact ⟨B, List.mem_append_left _ hB, i, hi, by rw [hl0same B hB]; exact hs⟩
            · exact ⟨b, List.mem_append_right _ (List.mem_singleton.mpr rfl), i, hi,
                by rw [hl0self]; exact hs⟩
          · rintro ⟨B, hB, i, hi, hs⟩
            rcases List.mem_append.mp hB with hBd | hBb
            · left
              exact (hEx n).mpr ⟨B, hBd, i, hi, by rw [← hs, hl0same B hBd]⟩
            · right
              rw [List.mem_singleton.mp hBb] at hi hs
              rw [hl0self] at hs
              exact ⟨i, hi, hs⟩
        rw [List.append_cons] at hpw hbn ⊢
        have := ih (done ++ [b]) ⟨occ₂, lvl₂, st.level0.set b.n seed⟩ st' hpw hbn
          hoc₂ hlv₂ (by simp only []; rw [List.length_set]; exact hl0) hPl₂ hEx₂ h
        exact this

theorem placeAll_level0_frozen (H : HashFam) (keys : List Str) (m1 : Nat)
    (bs : List indexBucket) : ∀ (st st' : PlaceState) (n : Nat),
    (∀ B ∈ bs, B.n ≠ n) → placeAll H keys m1 bs st = some st' →
    st'.level0.getD n 0 = st.level0.getD n 0 := by
  induction bs with
  | nil =>
    intro st st' n _ h
    simp only [placeAll, Option.some.injEq] at h
    rw [h]
  | cons b bs ih =>
    intro st st' n hne h
    simp only [placeAll] at h
    split at h
    · simp at h
    · rename_i st₂ heq
      simp only [placeBucket] at heq
      split at heq
      · simp at heq
      · rename_i p seed occ₂ lvl₂ hfind
        simp only [Option.some.injEq] at heq
        subst heq
        rw [ih _ _ _ (fun B hB => hne B (List.mem_cons_of_mem b hB)) h]
        simp only []
        exact getD_set_ne _ _ _ (hne b (List.mem_cons_self b bs))

theorem trySeed_lvl_bound (H : HashFam) (keys : List Str) (m1 seed : Nat)
    (vals : List Nat) : ∀ (occ : List Bool) (lvl tmp : List Nat)
      (occ₂ : List Bool) (lvl₂ : List Nat),
    (trySeed H keys m1 seed vals occ lvl tmp = .ok occ₂ lvl₂ ∨
      trySeed H keys m1 seed vals occ lvl tmp = .fail occ₂ lvl₂) →
    (∀ x ∈ lvl, x < 2 ^ 32) → ∀ x ∈ lvl₂, x < 2 ^ 32 := by
  induction vals with
  | nil =>
    intro occ lvl tmp occ₂ lvl₂ h hb
    rcases h with h | h <;> simp [trySeed] at h
    rw [← h.2]
    exact hb
  | cons j rest ih =>
    intro occ lvl tmp occ₂ lvl₂ h hb
    have hb₂ : ∀ x ∈ lvl.set (slotH H keys m1 seed j) (j % 2 ^ 32), x < 2 ^ 32 := by
      intro x hx
      rcases List.mem_or_eq_of_mem_set hx with hx₂ | hx₂
      · exact hb x hx₂
      · rw [hx₂]
        exact Nat.mod_lt _ (by norm_num)
    rcases h with h | h <;> simp only [trySeed] at h <;> split at h
    · simp at h
    · exact ih _ _ _ _ _ (Or.inl h) hb₂
    · simp only [TrialRes.fail.injEq] at h
      rw [← h.2]
      exact hb
    · exact ih _ _ _ _ _ (Or.inr h) hb₂

theorem findSeed_res_bound (H : HashFam) (keys : List Str) (m1 : Nat)
    (vals : List Nat) : ∀ (fuel seed : Nat) (occ : List Bool) (lvl : List Nat)
      (s : Nat) (occ₂ : List Bool) (lvl₂ : List Nat),
    seed < 2 ^ 32 → (∀ x ∈ lvl, x < 2 ^ 32) →
    findSeed H keys m1 fuel seed vals occ lvl = some (s, occ₂, lvl₂) →
    s < 2 ^ 32 ∧ ∀ x ∈ lvl₂, x < 2 ^ 32 := by
  intro fuel
  induction fuel with
  | zero =>
    intro seed occ lvl s occ₂ lvl₂ _ _ h
    simp [findSeed] at h
  | succ fuel ih =>
    intro seed occ lvl s occ₂ lvl₂ hs hb h
    simp only [findSeed] at h
    split at h
    · rename_i occ₃ lvl₃ heq
      simp only [Option.some.injEq, Prod.mk.injEq] at h
      obtain ⟨h₁, h₂, h₃⟩ := h
      subst h₁ h₂ h₃
      exact ⟨hs, trySeed_lvl_bound H keys m1 _ vals _ _ _ _ _ (Or.inl heq) hb⟩
    · rename_i occ₃ lvl₃ heq
      exact ih _ _ _ _ _ _ (Nat.mod_lt _ (by norm_num))
        (trySeed_lvl_bound H keys m1 _ vals _ _ _ _ _ (Or.inr heq) hb) h

theorem placeAll_bound (H : HashFam) (keys : List Str) (m1 : Nat)
    (bs : List indexBucket) : ∀ (st st' : PlaceState),
    (∀ x ∈ st.level1, x < 2 ^ 32) → (∀ x ∈ st.level0, x < 2 ^ 32) →
    placeAll H keys m1 bs st = some st' →
    (∀ x ∈ st'.level1, x < 2 ^ 32) ∧ (∀ x ∈ st'.level0, x < 2 ^ 32) := by
  induction bs with
  | nil =>
    intro st st' h1 h0 h
    simp only [placeAll, Option.some.injEq] at h
    rw [← h]
    exact ⟨h1, h0⟩
  | cons b bs ih =>
    intro st st' h1 h0 h
    simp only [placeAll] at h
    split at h
    · simp at h
    · rename_i st₂ heq
      simp only [placeBucket] at heq
      split at heq
      · simp at heq
      · rename_i p seed occ₂ lvl₂ hfind
        simp only [Option.some.injEq] at heq
        subst heq
        obtain ⟨hseed, hlvl⟩ :=
          findSeed_res_bound H keys m1 b.vals _ _ _ _ _ _ _ (by norm_num) h1 hfind
        refine ih _ _ hlvl ?_ h
        intro x hx
        rcases List.mem_or_eq_of_mem_set hx with hx₂ | hx₂
        · exact h0 x hx₂
        · rw [hx₂]
          exact hseed

/-! ### Bucket construction lemmas -/

theorem foldl_addToBucket (H : HashFam) (keys : List Str) (m0 : Nat)
    (l : List Nat) : ∀ (sb : List (List Nat)), sb.length = m0 →
    ∀ n, n < m0 →
    (l.foldl (fun sb i => addToBucket sb (H 0 (keys.getD i []) % m0) i) sb).getD n []
      = sb.getD n [] ++ l.filter (fun i => H 0 (keys.getD i []) % m0 = n) := by
  induction l with
  | nil =>
    intro sb _ n _
    simp
  | cons i l ih =>
    intro sb hlen n hn
    rw [List.foldl_cons, ih _ (by rw [addToBucket, List.length_set]; exact hlen) n hn,
      List.filter_cons]
    rcases eq_or_ne (H 0 (keys.getD i []) % m0) n with he | hne
    · rw [addToBucket, he, getD_set_self _ _ _ (by rw [hlen]; exact hn),
        if_pos (by simpa using he), List.append_assoc, List.singleton_append]
    · rw [addToBucket, getD_set_ne _ _ _ hne, if_neg (by simpa using hne)]

theorem sparseBuckets_length (H : HashFam) (keys : List Str) (m0 : Nat) :
    (sparseBuckets H keys m0).length = m0 := by
  rw [sparseBuckets]
  have h : ∀ (l : List Nat) (sb : List (List Nat)),
      (l.foldl (fun sb i => addToBucket sb (H 0 (keys.getD i []) % m0) i) sb).length
        = sb.length := by
    intro l
    induction l with
    | nil => intro sb; rfl
    | cons i l ih => intro sb; rw [List.foldl_cons, ih, addToBucket, List.length_set]
  rw [h, List.length_replicate]

theorem sparseBuckets_getD (H : HashFam) (keys : List Str) (m0 : Nat) {n : Nat}
    (hn : n < m0) : (sparseBuckets H keys m0).getD n [] = bucketVals H keys m0 n := by
  rw [sparseBuckets, bucketVals,
    foldl_addToBucket H keys m0 _ _ (List.length_replicate m0 []) n hn,
    getD_replicate]
  simp

theorem mem_bucketList (H : HashFam) (keys : List Str) (m0 : Nat) (B : indexBucket) :
    B ∈ bucketList H keys m0 ↔
      B.n < m0 ∧ bucketVals H keys m0 B.n ≠ [] ∧ B.vals = bucketVals H keys m0 B.n := by
  rw [bucketList, List.mem_filterMap]
  constructor
  · rintro ⟨n, hn, hf⟩
    rw [List.mem_range] at hn
    simp only [] at hf
    split at hf
    · simp at hf
    · rename_i hval
      simp only [Option.some.injEq] at hf
      rw [← hf]
      simp only []
      rw [sparseBuckets_getD H keys m0 hn] at hval ⊢
      exact ⟨hn, hval, rfl⟩
  · rintro ⟨hn, hval, hvals⟩
    refine ⟨B.n, List.mem_range.mpr hn, ?_⟩
    simp only []
    rw [sparseBuckets_getD H keys m0 hn]
    rw [if_neg hval]
    rw [← hvals]

theorem bucketList_pairwise (H : HashFam) (keys : List Str) (m0 : Nat) :
    List.Pairwise (fun a b : indexBucket => a.n ≠ b.n) (bucketList H keys m0) := by
  rw [bucketList, List.pairwise_filterMap]
  apply List.Pairwise.imp ?_ (List.pairwise_lt_range m0)
  intro a b hab B hB C hC
  simp only [Option.mem_def] at hB hC
  split at hB
  · simp at hB
  · simp only [Option.some.injEq] at hB
    split at hC
    · simp at hC
    · simp only [Option.some.injEq] at hC
      rw [← hB, ← hC]
      simp only []
      omega

theorem insertBySize_perm (b : indexBucket) (l : List indexBucket) :
    (insertBySize b l).Perm (b :: l) := by
  induction l with
  | nil => exact List.Perm.refl _
  | cons c cs ih =>
    rw [insertBySize]
    split
    · exact List.Perm.refl _
    · exact List.Perm.trans (List.Perm.cons c ih) (List.Perm.swap b c cs)

theorem sortBySize_perm (l : List indexBucket) : (sortBySize l).Perm l := by
  induction l with
  | nil => exact List.Perm.refl _
  | cons b bs ih =>
    rw [sortBySize]
    exact List.Perm.trans (insertBySize_perm b (sortBySize bs)) (List.Perm.cons b ih)

/-! ### Sizing lemmas -/

theorem le_floor_toNat (N : Nat) (q : ℚ) (h : (N : ℚ) ≤ q) :
    N ≤ (Int.floor q).toNat := by
  have h2 : (N : Int) ≤ Int.floor q := Int.le_floor.mpr (by exact_mod_cast h)
  calc N = (N : Int).toNat := rfl
  _ ≤ (Int.floor q).toNat := Int.toNat_le_toNat h2

theorem goTruncDiv_eq_floor (N : Nat) (lf : ℚ) (h : 0 < lf) :
    goTruncDiv N lf = Int.floor ((N : ℚ) / lf) := by
  have hnum : 0 < lf.num := Rat.num_pos.mpr h
  have hnn : ((lf.num.toNat : ℕ) : ℤ) = lf.num := Int.toNat_of_nonneg hnum.le
  have hdn : ((lf.den : ℕ) : ℚ) ≠ 0 := Nat.cast_ne_zero.mpr lf.den_nz
  have hn0 : ((lf.num : ℤ) : ℚ) ≠ 0 := by
    exact_mod_cast Int.ne_of_gt hnum
  have key : (lf.num : ℚ) = lf * (lf.den : ℚ) := by
    have h1 := Rat.num_div_den lf
    rw [div_eq_iff hdn] at h1
    exact h1
  have hq : (N : ℚ) / lf = (((N : Int) * lf.den : Int) : ℚ) / ((lf.num.toNat : ℕ) : ℚ) := by
    have hcast : ((lf.num.toNat : ℕ) : ℚ) = ((lf.num : ℤ) : ℚ) := by
      exact_mod_cast congrArg (fun z : ℤ => (z : ℚ)) hnn
    rw [hcast, div_eq_div_iff (ne_of_gt h) hn0]
    push_cast
    rw [key]
    ring
  rw [hq, Rat.floor_intCast_div_natCast, goTruncDiv,
    Int.tdiv_eq_ediv (by positivity) hnum.le, hnn]

theorem goTruncDiv_one (N : Nat) : goTruncDiv N 1 = (N : Int) := by
  rw [goTruncDiv]
  have h1 : (1 : ℚ).num = 1 := rfl
  have h2 : (1 : ℚ).den = 1 := rfl
  rw [h1, h2]
  simp

theorem goTruncDiv_nonpos (N : Nat) (lf : ℚ) (h : lf < 0) : goTruncDiv N lf ≤ 0 := by
  rw [goTruncDiv]
  exact Int.tdiv_nonpos (by positivity) (Rat.num_nonpos.mpr h.le)

theorem tableLen_cases (keys : List Str) (lf : ℚ) :
    (goTruncDiv keys.length (clampLF lf)).toNat = 0 ∨
    keys.length ≤ (goTruncDiv keys.length (clampLF lf)).toNat := by
  rw [clampLF]
  split
  · right
    rw [goTruncDiv_one]
    simp
  · rename_i hc
    push_neg at hc
    rcases lt_trichotomy lf 0 with hneg | hzero | hpos
    · left
      exact Int.toNat_of_nonpos (goTruncDiv_nonpos _ _ hneg)
    · exact absurd hzero hc.2
    · right
      rw [goTruncDiv_eq_floor _ _ hpos]
      apply le_floor_toNat
      rw [le_div_iff₀ hpos]
      exact mul_le_of_le_one_right (Nat.cast_nonneg _) hc.1

/-- Structure of a successfully built table of the fingerprint variant. -/
theorem Build_elim (H : HashFam) (keys : List Str) (lf : ℚ) (T : Table)
    (h : Build H keys lf = some T) :
    ∃ st : PlaceState,
      T = ⟨keys.map fnv64a, st.level0, T.level0Len, st.level1, T.level1Len⟩ ∧
      T.level0Len = T.level1Len / 4 ∧
      keys.length ≤ T.level1Len ∧
      (keys.length ≠ 0 → 0 < T.level0Len) ∧
      placeAll H keys T.level1Len (sortBySize (bucketList H keys T.level0Len))
        (initState T.level0Len T.level1Len) = some st := by
  simp only [Build] at h
  split at h
  · simp at h
  · split at h
    · simp at h
    · rename_i hngood hguard
      split at h
      · simp at h
      · rename_i st hpl
        simp only [Option.some.injEq] at h
        push_neg at hguard
        refine ⟨st, ?_, ?_, ?_, ?_, ?_⟩
        · rw [← h]
        · rw [← h]
        · rw [← h]
          simp only []
          rcases Nat.eq_zero_or_pos keys.length with hz | hp
          · omega
          · rcases tableLen_cases keys lf with hc | hc
            · exact absurd (by rw [hc]) (hguard (by omega))
            · exact hc
        · rw [← h]
          simp only []
          intro hk
          exact Nat.pos_of_ne_zero (hguard hk)
        · rw [← h]
          simp only []
          exact hpl

theorem getElem?_eq_getD {α : Type} (l : List α) (d : α) {n : Nat}
    (h : n < l.length) : l[n]? = some (l.getD n d) := by
  rw [List.getElem?_eq_getElem h, List.getD_eq_getElem l d h]

/-- Evaluation of Lookup on a table whose length fields agree with its arrays and
whose level-1 entry at the probed slot is a valid key-hash index. -/
theorem Lookup_some (H : HashFam) (t : Table) (s : Str)
    (h0 : t.level0Len ≠ 0) (h1 : t.level1Len ≠ 0)
    (hL0 : t.level0.length = t.level0Len) (hL1 : t.level1.length = t.level1Len)
    (hn : t.level1.getD (H (t.level0.getD (H 0 s % t.level0Len) 0) s % t.level1Len) 0 <
      t.keyHashes.length) :
    Lookup H t s =
      some (t.level1.getD (H (t.level0.getD (H 0 s % t.level0Len) 0) s % t.level1Len) 0,
        decide (fnv64a s = t.keyHashes.getD
          (t.level1.getD (H (t.level0.getD (H 0 s % t.level0Len) 0) s % t.level1Len) 0) 0)) := by
  have hi0 : H 0 s % t.level0Len < t.level0.length := by
    rw [hL0]
    exact Nat.mod_lt _ (Nat.pos_of_ne_zero h0)
  have hi1 : H (t.level0.getD (H 0 s % t.level0Len) 0) s % t.level1Len < t.level1.length := by
    rw [hL1]
    exact Nat.mod_lt _ (Nat.pos_of_ne_zero h1)
  simp only [Lookup, if_neg h0, if_neg h1, getElem?_eq_getD t.level0 0 hi0,
    getElem?_eq_getD t.level1 0 hi1, getElem?_eq_getD t.keyHashes 0 hn]

/-- C1: for every Table returned by Build from distinct keys and a valid load
factor, looking up the input key at position `i` returns `(i, true)`.  The bound
`keys.length ≤ 2 ^ 32` reflects that the source stores key indices as `uint32`
level-1 entries. -/
theorem build_lookup_inputs (H : HashFam) (keys : List Str) (lf : ℚ) (T : Table)
    (hnd : keys.Nodup) (hlf0 : 0 < lf) (hlf1 : lf ≤ 1) (hN : keys.length ≤ 2 ^ 32)
    (hb : Build H keys lf = some T) :
    ∀ i < keys.length, Lookup H T (keys.getD i []) = some (i, true) := by
  obtain ⟨st, hT, hdiv4, hNle, hm0pos, hpl⟩ := Build_elim H keys lf T hb
  intro i hi
  have hkne : keys.length ≠ 0 := by omega
  have hm0 : 0 < T.level0Len := hm0pos hkne
  have hm1 : 0 < T.level1Len := by omega
  have hfkh : T.keyHashes = keys.map fnv64a := by rw [hT]
  have hf0 : T.level0 = st.level0 := by rw [hT]
  have hf1 : T.level1 = st.level1 := by rw [hT]
  have hib : i ∈ bucketVals H keys T.level0Len (slotH H keys T.level0Len 0 i) := by
    rw [bucketVals, List.mem_filter]
    refine ⟨List.mem_range.mpr hi, ?_⟩
    simp [slotH]
  have hBmem : (⟨slotH H keys T.level0Len 0 i,
      bucketVals H keys T.level0Len (slotH H keys T.level0Len 0 i)⟩ : indexBucket) ∈
      bucketList H keys T.level0Len := by
    rw [mem_bucketList]
    exact ⟨Nat.mod_lt _ hm0, List.ne_nil_of_mem hib, rfl⟩
  have hsmem := (sortBySize_perm (bucketList H keys T.level0Len)).mem_iff.mpr hBmem
  have hpw : List.Pairwise (fun a c : indexBucket => a.n ≠ c.n)
      ([] ++ sortBySize (bucketList H keys T.level0Len)) := by
    rw [List.nil_append]
    exact ((sortBySize_perm _).pairwise_iff (fun hxy => Ne.symm hxy)).mpr
      (bucketList_pairwise H keys _)
  have hbn : ∀ B ∈ [] ++ sortBySize (bucketList H keys T.level0Len),
      B.n < T.level0Len := by
    intro B hB
    rw [List.nil_append] at hB
    exact ((mem_bucketList H keys _ B).mp ((sortBySize_perm _).mem_iff.mp hB)).1
  have hinv := placeAll_inv H keys T.level0Len T.level1Len hm1 _ [] _ st hpw hbn
    (by simp [initState]) (by simp [initState]) (by simp [initState])
    (by intro B hB; simp at hB)
    (by
      intro n
      constructor
      · intro hc
        simp [initState, getD_replicate] at hc
      · rintro ⟨B, hB, _⟩
        simp at hB)
    hpl
  obtain ⟨⟨hoL, h1L, h0L⟩, hPl, hEx⟩ := hinv
  rw [List.nil_append] at hPl
  have hPlB := hPl _ hsmem i hib
  have hi32 : i % 2 ^ 32 = i := Nat.mod_eq_of_lt (by omega)
  simp only [slotH, hi32] at hPlB
  have hkhlen : T.keyHashes.length = keys.length := by
    rw [hfkh, List.length_map]
  rw [Lookup_some H T (keys.getD i []) (by omega) (by omega)
    (by rw [hf0, h0L]) (by rw [hf1, h1L])
    (by rw [hf0, hf1, hPlB.2, hkhlen]; exact hi)]
  rw [hf0, hf1, hPlB.2, hfkh]
  have hmap : (keys.map fnv64a).getD i 0 = fnv64a (keys.getD i []) := by
    rw [List.getD_eq_getElem _ _ (by rw [List.length_map]; exact hi),
      List.getElem_map, List.getD_eq_getElem keys [] hi]
  rw [hmap]
  simp

theorem build_lookup_inputs_witness :
    Lookup h4 tbl4 (k4.getD 0 []) = some (0, true) :=
  build_lookup_inputs h4 k4 1 tbl4 (by decide) (by norm_num) (by norm_num)
    (by decide) (by decide) 0 (by decide)

/-- C8: in every Table returned by Build, each level-0 slot of a non-empty bucket
holds a seed that places that bucket's keys at pairwise-distinct level-1 slots
where level1 records exactly their indices, and each level-0 slot of an empty
bucket holds 0. -/
theorem build_level0_contents (H : HashFam) (keys : List Str) (lf : ℚ) (T : Table)
    (hnd : keys.Nodup) (hlf0 : 0 < lf) (hlf1 : lf ≤ 1) (hN : keys.length ≤ 2 ^ 32)
    (hb : Build H keys lf = some T) :
    ∀ b < T.level0Len,
      (bucketVals H keys T.level0Len b = [] → T.level0.getD b 0 = 0) ∧
      (∀ i ∈ bucketVals H keys T.level0Len b,
        T.level1.getD (H (T.level0.getD b 0) (keys.getD i []) % T.level1Len) 0 = i) ∧
      (∀ i ∈ bucketVals H keys T.level0Len b, ∀ j ∈ bucketVals H keys T.level0Len b,
        i ≠ j →
        H (T.level0.getD b 0) (keys.getD i []) % T.level1Len ≠
          H (T.level0.getD b 0) (keys.getD j []) % T.level1Len) := by
  obtain ⟨st, hT, hdiv4, hNle, hm0pos, hpl⟩ := Build_elim H keys lf T hb
  intro b hbm0
  have hf0 : T.level0 = st.level0 := by rw [hT]
  have hf1 : T.level1 = st.level1 := by rw [hT]
  have hvals : ∀ i ∈ bucketVals H keys T.level0Len b,
      st.level1.getD (H (st.level0.getD b 0) (keys.getD i []) % T.level1Len) 0 = i := by
    intro i hi
    have hiN : i < keys.length := by
      have := List.mem_filter.mp hi
      exact List.mem_range.mp this.1
    have hm1 : 0 < T.level1Len := by omega
    have hBmem : (⟨b, bucketVals H keys T.level0Len b⟩ : indexBucket) ∈
        bucketList H keys T.level0Len := by
      rw [mem_bucketList]
      exact ⟨hbm0, List.ne_nil_of_mem hi, rfl⟩
    have hsmem := (sortBySize_perm (bucketList H keys T.level0Len)).mem_iff.mpr hBmem
    have hpw : List.Pairwise (fun a c : indexBucket => a.n ≠ c.n)
        ([] ++ sortBySize (bucketList H keys T.level0Len)) := by
      rw [List.nil_append]
      exact ((sortBySize_perm _).pairwise_iff (fun hxy => Ne.symm hxy)).mpr
        (bucketList_pairwise H keys _)
    have hbn : ∀ B ∈ [] ++ sortBySize (bucketList H keys T.level0Len),
        B.n < T.level0Len := by
      intro B hB
      rw [List.nil_append] at hB
      exact ((mem_bucketList H keys _ B).mp ((sortBySize_perm _).mem_iff.mp hB)).1
    have hinv := placeAll_inv H keys T.level0Len T.level1Len hm1 _ [] _ st hpw hbn
      (by simp [initState]) (by simp [initState]) (by simp [initState])
      (by intro B hB; simp at hB)
      (by
        intro n
        constructor
        · intro hc
          simp [initState, getD_replicate] at hc
        · rintro ⟨B, hB, _⟩
          simp at hB)
      hpl
    obtain ⟨_, hPl, _⟩ := hinv
    rw [List.nil_append] at hPl
    have hPlB := hPl _ hsmem i hi
    have hi32 : i % 2 ^ 32 = i := Nat.mod_eq_of_lt (by omega)
    simp only [slotH, hi32] at hPlB
    exact hPlB.2
  refine ⟨?_, ?_, ?_⟩
  · intro hempty
    rw [hf0]
    have hfro := placeAll_level0_frozen H keys T.level1Len
      (sortBySize (bucketList H keys T.level0Len))
      (initState T.level0Len T.level1Len) st b ?_ hpl
    · rw [hfro]
      simp [initState, getD_replicate]
    · intro B hB he
      have hmem := (mem_bucketList H keys _ B).mp ((sortBySize_perm _).mem_iff.mp hB)
      exact hmem.2.1 (by rw [he, hempty])
  · intro i hi
    rw [hf0, hf1]
    exact hvals i hi
  · intro i hi j hj hij
    rw [hf0]
    intro heq
    have h1 := hvals i hi
    have h2 := hvals j hj
    rw [heq, h2] at h1
    exact hij h1.symm

theorem build_level0_contents_witness :
    (bucketVals h4 k4 tbl4.level0Len 0 = [] → tbl4.level0.getD 0 0 = 0) ∧
    (∀ i ∈ bucketVals h4 k4 tbl4.level0Len 0,
      tbl4.level1.getD (h4 (tbl4.level0.getD 0 0) (k4.getD i []) % tbl4.level1Len) 0 = i) ∧
    (∀ i ∈ bucketVals h4 k4 tbl4.level0Len 0, ∀ j ∈ bucketVals h4 k4 tbl4.level0Len 0,
      i ≠ j →
      h4 (tbl4.level0.getD 0 0) (k4.getD i []) % tbl4.level1Len ≠
        h4 (tbl4.level0.getD 0 0) (k4.getD j []) % tbl4.level1Len) :=
  build_level0_contents h4 k4 1 tbl4 (by decide) (by norm_num) (by norm_num)
    (by decide) (by decide) 0 (by decide)

/-- C10: during a successful Build, after any prefix of the bucket placements the
occupancy bitmap is true at exactly the slots assigned to placed keys, with
level1 holding the key's index there; and any failed seed trial returns the
occupancy exactly as it was when the trial began. -/
theorem build_occupancy_rollback (H : HashFam) (keys : List Str) (lf : ℚ)
    (T : Table) (hnd : keys.Nodup) (hN : keys.length ≤ 2 ^ 32)
    (hb : Build H keys lf = some T) :
    (∀ (pre suf : List indexBucket) (st : PlaceState),
      sortBySize (bucketList H keys T.level0Len) = pre ++ suf →
      placeAll H keys T.level1Len pre (initState T.level0Len T.level1Len) = some st →
      (∀ n, st.occ.getD n false = true ↔
        ∃ B ∈ pre, ∃ i ∈ B.vals,
          H (st.level0.getD B.n 0) (keys.getD i []) % T.level1Len = n) ∧
      (∀ B ∈ pre, ∀ i ∈ B.vals,
        st.occ.getD (H (st.level0.getD B.n 0) (keys.getD i []) % T.level1Len) false
          = true ∧
        st.level1.getD (H (st.level0.getD B.n 0) (keys.getD i []) % T.level1Len) 0
          = i)) ∧
    (∀ (seed : Nat) (vals : List Nat) (occ : List Bool) (lvl : List Nat)
      (occF : List Bool) (lvlF : List Nat),
      trySeed H keys T.level1Len seed vals occ lvl [] = .fail occF lvlF →
      occF = occ) := by
  obtain ⟨st₀, hT, hdiv4, hNle, hm0pos, hpl⟩ := Build_elim H keys lf T hb
  constructor
  · intro pre suf st hsplit hpre
    rcases List.eq_nil_or_concat pre with hpre0 | ⟨pre', b₀, hpre0⟩
    · subst hpre0
      simp only [placeAll, Option.some.injEq] at hpre
      subst hpre
      refine ⟨?_, ?_⟩
      · intro n
        constructor
        · intro hc
          simp [initState, getD_replicate] at hc
        · rintro ⟨B, hB, _⟩
          simp at hB
      · intro B hB
        simp at hB
    · have hprene : pre ≠ [] := by
        rw [hpre0]
        simp
      obtain ⟨b₁, hb₁⟩ : ∃ b₁, b₁ ∈ pre := by
        rcases pre with _ | ⟨c, cs⟩
        · exact absurd rfl hprene
        · exact ⟨c, List.mem_cons_self c cs⟩
      have hb₁s : b₁ ∈ sortBySize (bucketList H keys T.level0Len) := by
        rw [hsplit]
        exact List.mem_append_left _ hb₁
      have hb₁b := (mem_bucketList H keys _ b₁).mp
        ((sortBySize_perm _).mem_iff.mp hb₁s)
      obtain ⟨i₀, hi₀⟩ : ∃ i₀, i₀ ∈ bucketVals H keys T.level0Len b₁.n := by
        rcases hv : bucketVals H keys T.level0Len b₁.n with _ | ⟨c, cs⟩
        · exact absurd hv hb₁b.2.1
        · exact ⟨c, hv ▸ List.mem_cons_self c cs⟩
      have hi₀N : i₀ < keys.length := List.mem_range.mp (List.mem_filter.mp hi₀).1
      have hm1 : 0 < T.level1Len := by omega
      have hpwAll : List.Pairwise (fun a c : indexBucket => a.n ≠ c.n)
          (sortBySize (bucketList H keys T.level0Len)) :=
        ((sortBySize_perm _).pairwise_iff (fun hxy => Ne.symm hxy)).mpr
          (bucketList_pairwise H keys _)
      have hpw : List.Pairwise (fun a c : indexBucket => a.n ≠ c.n) ([] ++ pre) := by
        rw [List.nil_append]
        rw [hsplit] at hpwAll
        exact (List.pairwise_append.mp hpwAll).1
      have hbn : ∀ B ∈ [] ++ pre, B.n < T.level0Len := by
        intro B hB
        rw [List.nil_append] at hB
        have hBs : B ∈ sortBySize (bucketList H keys T.level0Len) := by
          rw [hsplit]
          exact List.mem_append_left _ hB
        exact ((mem_bucketList H keys _ B).mp ((sortBySize_perm _).mem_iff.mp hBs)).1
      have hinv := placeAll_inv H keys T.level0Len T.level1Len hm1 pre [] _ st hpw hbn
        (by simp [initState]) (by simp [initState]) (by simp [initState])
        (by intro B hB; simp at hB)
        (by
          intro n
          constructor
          · intro hc
            simp [initState, getD_replicate] at hc
          · rintro ⟨B, hB, _⟩
            simp at hB)
        hpre
      obtain ⟨_, hPl, hEx⟩ := hinv
      rw [List.nil_append] at hPl hEx
      constructor
      · intro n
        have := hEx n
        simp only [OccExact, slotH] at this
        exact this
      · intro B hB i hi
        have hPlB := hPl B hB i hi
        have hBs : B ∈ sortBySize (bucketList H keys T.level0Len) := by
          rw [hsplit]
          exact List.mem_append_left _ hB
        have hBb := (mem_bucketList H keys _ B).mp ((sortBySize_perm _).mem_iff.mp hBs)
        have hiN : i < keys.length := by
          rw [hBb.2.2] at hi
          exact List.mem_range.mp (List.mem_filter.mp hi).1
        have hi32 : i % 2 ^ 32 = i := Nat.mod_eq_of_lt (by omega)
        simp only [slotH, hi32] at hPlB
        exact hPlB
  · intro seed vals occ lvl occF lvlF htr
    exact trySeed_fail_occ H keys T.level1Len seed vals occ lvl [] occ occF lvlF rfl
      (by simp) (by simp) htr

theorem build_occupancy_rollback_witness :
    (∀ (pre suf : List indexBucket) (st : PlaceState),
      sortBySize (bucketList h4 k4 tbl4.level0Len) = pre ++ suf →
      placeAll h4 k4 tbl4.level1Len pre (initState tbl4.level0Len tbl4.level1Len)
        = some st →
      (∀ n, st.occ.getD n false = true ↔
        ∃ B ∈ pre, ∃ i ∈ B.vals,
          h4 (st.level0.getD B.n 0) (k4.getD i []) % tbl4.level1Len = n) ∧
      (∀ B ∈ pre, ∀ i ∈ B.vals,
        st.occ.getD (h4 (st.level0.getD B.n 0) (k4.getD i []) % tbl4.level1Len) false
          = true ∧
        st.level1.getD (h4 (st.level0.getD B.n 0) (k4.getD i []) % tbl4.level1Len) 0
          = i)) ∧
    (∀ (seed : Nat) (vals : List Nat) (occ : List Bool) (lvl : List Nat)
      (occF : List Bool) (lvlF : List Nat),
      trySeed h4 k4 tbl4.level1Len seed vals occ lvl [] = .fail occF lvlF →
      occF = occ) :=
  build_occupancy_rollback h4 k4 1 tbl4 (by decide) (by decide) (by decide)

/-- C2 (code bug): on the valid single-key input `"a"` with load factor 1 the
sizing rule gives a level-0 array of length `(1/4) = 0`, and the bucketing loop's
`% level0Len` is a Go integer division by zero: Build panics instead of
returning a Table.  Both source variants fail identically (`none` resp.
`Except.error ()` model the panic). -/
theorem build_single_key_panics (H : HashFam) (Φ : Type) (F : Φ) :
    Build H [[97]] 1 = none ∧ buildInternalB H [[97]] 1 F = .error () :=
  ⟨rfl, rfl⟩

/-- C3 (code bug): Build on the empty key list returns the empty Table (all
lengths zero), but Lookup on that Table evaluates `% t.level0Len` with
`level0Len = 0`, a Go integer division by zero: Lookup panics instead of
returning `found = false`.  Both variants fail identically. -/
theorem empty_table_lookup_panics (H : HashFam) (s : Str) (Φ : Type) (F : Φ)
    (Has : Φ → Str → Bool) :
    Build H [] 1 = some ⟨[], [], 0, [], 0⟩ ∧
    Lookup H ⟨[], [], 0, [], 0⟩ s = none ∧
    BuildB H [] F 1 = .ok (some ⟨F, [], 0, [], 0⟩, none) ∧
    LookupB H Has ⟨F, [], 0, [], 0⟩ s = none := by
  refine ⟨rfl, rfl, ?_, rfl⟩
  have h1 : buildInternalB H ([] : List Str) (clampLF 1) F = .ok (some ⟨F, [], 0, [], 0⟩) := rfl
  rw [BuildB, buildLoop, h1]

/-- C7: a load factor of 0 or above 1 is clamped to 1, so Build behaves exactly
as with load factor 1, in both variants. -/
theorem build_clamp (H : HashFam) (keys : List Str) (lf : ℚ) (Φ : Type) (F : Φ) :
    Build H keys 0 = Build H keys 1 ∧
    (1 < lf → Build H keys lf = Build H keys 1) ∧
    BuildB H keys F 0 = BuildB H keys F 1 ∧
    (1 < lf → BuildB H keys F lf = BuildB H keys F 1) := by
  have hc0 : clampLF 0 = clampLF 1 := by decide
  have hc1 : 1 < lf → clampLF lf = clampLF 1 := by
    intro h
    rw [clampLF, if_pos (Or.inl h)]
    decide
  refine ⟨?_, fun h => ?_, ?_, fun h => ?_⟩
  · simp only [Build, hc0]
  · simp only [Build, hc1 h]
  · simp only [BuildB, hc0]
  · simp only [BuildB, hc1 h]

theorem build_clamp_witness :
    Build h4 k4 2 = Build h4 k4 1 ∧ BuildB h4 k4 () 2 = BuildB h4 k4 () 1 :=
  ⟨(build_clamp h4 k4 2 Unit ()).2.1 (by norm_num),
    (build_clamp h4 k4 2 Unit ()).2.2.2 (by norm_num)⟩

/-- C9: Lookup is deterministic and a pure function of the Table's fields:
repeated calls return the same pair, and the result depends on nothing but the
five fields of the receiver (the Go method performs only reads). -/
theorem lookup_pure (H : HashFam) (t : Table) (s : Str) :
    Lookup H t s = Lookup H t s ∧
    ∀ t₂ : Table, t₂.keyHashes = t.keyHashes → t₂.level0 = t.level0 →
      t₂.level0Len = t.level0Len → t₂.level1 = t.level1 →
      t₂.level1Len = t.level1Len → Lookup H t₂ s = Lookup H t s := by
  refine ⟨rfl, ?_⟩
  intro t₂ h1 h2 h3 h4 h5
  cases t
  cases t₂
  simp only [] at h1 h2 h3 h4 h5
  subst h1 h2 h3 h4 h5
  rfl

theorem lookup_pure_witness : Lookup h4 tbl4 [10] = Lookup h4 tbl4 [10] :=
  (lookup_pure h4 tbl4 [10]).2 tbl4 rfl rfl rfl rfl rfl

/-! ### Codec lemmas -/

theorem length_encodeLE (w : Nat) : ∀ v : Nat, (encodeLE w v).length = w := by
  induction w with
  | zero => intro v; rfl
  | succ w ih => intro v; rw [encodeLE, List.length_cons, ih]

theorem decodeLE_encodeLE (w : Nat) : ∀ (v : Nat) (r : List Nat), v < 256 ^ w →
    decodeLE w (encodeLE w v ++ r) = v := by
  induction w with
  | zero =>
    intro v r hv
    rw [pow_zero] at hv
    interval_cases v
    rfl
  | succ w ih =>
    intro v r hv
    rw [encodeLE, List.cons_append, decodeLE]
    simp only [List.headD_cons, List.tail_cons]
    rw [ih (v / 256) r ?_]
    · exact Nat.mod_add_div v 256
    · rw [Nat.div_lt_iff_lt_mul (by norm_num)]
      calc v < 256 ^ (w + 1) := hv
      _ = 256 ^ w * 256 := by ring

theorem concatMapEnc_cons (w x : Nat) (xs : List Nat) :
    concatMapEnc w (x :: xs) = encodeLE w x ++ concatMapEnc w xs := by
  simp [concatMapEnc]

theorem length_concatMapEnc (w : Nat) (xs : List Nat) :
    (concatMapEnc w xs).length = w * xs.length := by
  induction xs with
  | nil => rfl
  | cons x xs ih =>
    rw [concatMapEnc_cons, List.length_append, ih, length_encodeLE,
      List.length_cons, Nat.mul_succ]
    omega

theorem drop_concatMapEnc (w : Nat) (xs r : List Nat) :
    (concatMapEnc w xs ++ r).drop (w * xs.length) = r := by
  have h := List.drop_left (concatMapEnc w xs) r
  rwa [length_concatMapEnc] at h

theorem drop_encodeLE (w v : Nat) (r : List Nat) : (encodeLE w v ++ r).drop w = r := by
  have h := List.drop_left (encodeLE w v) r
  rwa [length_encodeLE] at h

theorem readVec_concat (w : Nat) (xs : List Nat) : ∀ r : List Nat,
    (∀ x ∈ xs, x < 256 ^ w) →
    readVec w xs.length (concatMapEnc w xs ++ r) = xs := by
  induction xs with
  | nil =>
    intro r _
    rfl
  | cons x xs ih =>
    intro r hx
    rw [concatMapEnc_cons, List.append_assoc, readVec, List.length_cons,
      List.range_succ_eq_map, List.map_cons, List.map_map]
    congr 1
    · rw [Nat.mul_zero, List.drop_zero]
      exact decodeLE_encodeLE w x _ (hx x (List.mem_cons_self x xs))
    · rw [show ((fun i => decodeLE w ((encodeLE w x ++ (concatMapEnc w xs ++ r)).drop
          (w * i))) ∘ Nat.succ) = (fun i => decodeLE w ((concatMapEnc w xs ++ r).drop
          (w * i))) from ?_]
      · exact ih r (fun y hy => hx y (List.mem_cons_of_mem x hy))
      · funext i
        simp only [Function.comp_apply]
        rw [Nat.mul_succ, Nat.add_comm, ← List.drop_drop, drop_encodeLE]

theorem fnv64a_lt (s : Str) : fnv64a s < 2 ^ 64 := by
  rw [fnv64a]
  have h : ∀ (l : List Nat) (a : Nat), a < 2 ^ 64 →
      (l.foldl (fun hash c => Nat.xor hash (c % 256) * prime64 % 2 ^ 64) a) < 2 ^ 64 := by
    intro l
    induction l with
    | nil => intro a ha; exact ha
    | cons c l ih =>
      intro a ha
      rw [List.foldl_cons]
      exact ih _ (Nat.mod_lt _ (by norm_num))
  exact h s offset64 (by norm_num [offset64])

/-- Losslessness of the codec on any table whose length fields agree with its
arrays and whose entries fit the machine widths the wire format uses. -/
theorem toInt64_small (n : Nat) (h : n < 2 ^ 63) : toInt64 n = n := by
  unfold toInt64
  rw [Nat.mod_eq_of_lt (by omega), if_pos h]

theorem wrap64_le (x : Int) (h : -(2 ^ 63) ≤ x) : wrap64 x ≤ x := by
  unfold wrap64
  omega

theorem unmarshal_marshal (t : Table)
    (hL0 : t.level0.length = t.level0Len) (hL1 : t.level1.length = t.level1Len)
    (hK : t.keyHashes.length < 2 ^ 63) (hm0 : t.level0Len < 2 ^ 63)
    (hm1 : t.level1Len < 2 ^ 63)
    (hkh : ∀ x ∈ t.keyHashes, x < 2 ^ 64) (hl0 : ∀ x ∈ t.level0, x < 2 ^ 32)
    (hl1 : ∀ x ∈ t.level1, x < 2 ^ 32) :
    UnmarshalBinary (MarshalBinary t) = .ok (some t) := by
  obtain ⟨kh, l0, m0, l1, m1⟩ := t
  simp only [] at hL0 hL1 hK hm0 hm1 hkh hl0 hl1
  have h64 : (2 : Nat) ^ 64 = 256 ^ 8 := by norm_num
  have h32 : (2 : Nat) ^ 32 = 256 ^ 4 := by norm_num
  have hlen : (MarshalBinary ⟨kh, l0, m0, l1, m1⟩).length =
      25 + 8 * kh.length + 4 * (m0 + m1) := by
    simp only [MarshalBinary, List.length_cons, List.length_append,
      length_encodeLE, length_concatMapEnc]
    rw [hL0, hL1]
    omega
  have hd1 : (MarshalBinary ⟨kh, l0, m0, l1, m1⟩).drop 1 =
      encodeLE 8 kh.length ++ (encodeLE 8 m0 ++ (encodeLE 8 m1 ++
        (concatMapEnc 8 kh ++ (concatMapEnc 4 l0 ++ concatMapEnc 4 l1)))) := by
    simp only [MarshalBinary, List.drop_succ_cons, List.drop_zero, List.append_assoc]
  have hd9 : (MarshalBinary ⟨kh, l0, m0, l1, m1⟩).drop 9 =
      encodeLE 8 m0 ++ (encodeLE 8 m1 ++
        (concatMapEnc 8 kh ++ (concatMapEnc 4 l0 ++ concatMapEnc 4 l1))) := by
    rw [show (9 : Nat) = 1 + 8 from rfl, ← List.drop_drop, hd1, drop_encodeLE]
  have hd17 : (MarshalBinary ⟨kh, l0, m0, l1, m1⟩).drop 17 =
      encodeLE 8 m1 ++ (concatMapEnc 8 kh ++ (concatMapEnc 4 l0 ++ concatMapEnc 4 l1)) := by
    rw [show (17 : Nat) = 9 + 8 from rfl, ← List.drop_drop, hd9, drop_encodeLE]
  have hd25 : (MarshalBinary ⟨kh, l0, m0, l1, m1⟩).drop 25 =
      concatMapEnc 8 kh ++ (concatMapEnc 4 l0 ++ concatMapEnc 4 l1) := by
    rw [show (25 : Nat) = 17 + 8 from rfl, ← List.drop_drop, hd17, drop_encodeLE]
  have hdecK : decodeLE 8 ((MarshalBinary ⟨kh, l0, m0, l1, m1⟩).drop 1) = kh.length := by
    rw [hd1]
    exact decodeLE_encodeLE 8 _ _ (by rw [← h64]; omega)
  have hdecm0 : decodeLE 8 ((MarshalBinary ⟨kh, l0, m0, l1, m1⟩).drop 9) = m0 := by
    rw [hd9]
    exact decodeLE_encodeLE 8 _ _ (by rw [← h64]; omega)
  have hdecm1 : decodeLE 8 ((MarshalBinary ⟨kh, l0, m0, l1, m1⟩).drop 17) = m1 := by
    rw [hd17]
    exact decodeLE_encodeLE 8 _ _ (by rw [← h64]; omega)
  have htK : toInt64 (decodeLE 8 ((MarshalBinary ⟨kh, l0, m0, l1, m1⟩).drop 1)) =
      (kh.length : Int) := by
    rw [hdecK]
    exact toInt64_small _ hK
  have htm0 : toInt64 (decodeLE 8 ((MarshalBinary ⟨kh, l0, m0, l1, m1⟩).drop 9)) =
      (m0 : Int) := by
    rw [hdecm0]
    exact toInt64_small _ hm0
  have htm1 : toInt64 (decodeLE 8 ((MarshalBinary ⟨kh, l0, m0, l1, m1⟩).drop 17)) =
      (m1 : Int) := by
    rw [hdecm1]
    exact toInt64_small _ hm1
  have hsum : ¬ (((MarshalBinary ⟨kh, l0, m0, l1, m1⟩).length : Int) <
      unmarshalSum (MarshalBinary ⟨kh, l0, m0, l1, m1⟩)) := by
    unfold unmarshalSum
    rw [htK, htm0, htm1, hlen]
    have he : (0 : Int) ≤ (1 + (kh.length : Int) + 1 + 1) * 8 +
        ((m0 : Int) + (m1 : Int)) * 4 + 1 := by omega
    have hle := wrap64_le _ (le_trans (by norm_num) he)
    have hcast : ((25 + 8 * kh.length + 4 * (m0 + m1) : Nat) : Int) =
        (1 + (kh.length : Int) + 1 + 1) * 8 + ((m0 : Int) + (m1 : Int)) * 4 + 1 := by
      push_cast
      ring
    rw [hcast]
    exact not_lt.mpr hle
  rw [UnmarshalBinary]
  rw [if_neg (by rw [hlen]; omega)]
  rw [if_neg (by
    simp only [MarshalBinary, List.getD_cons_zero]
    intro hc
    exact hc rfl)]
  simp only [htK, htm0, htm1, Int.toNat_natCast]
  rw [if_neg hsum]
  rw [if_neg (by exact not_lt.mpr (Int.natCast_nonneg _))]
  rw [if_neg (by rw [hlen]; omega)]
  rw [if_neg (by exact not_lt.mpr (Int.natCast_nonneg _))]
  rw [if_neg (by rw [hlen]; omega)]
  rw [if_neg (by exact not_lt.mpr (Int.natCast_nonneg _))]
  rw [if_neg (by rw [hlen]; omega)]
  rw [hd25]
  have hrK : readVec 8 kh.length
      (concatMapEnc 8 kh ++ (concatMapEnc 4 l0 ++ concatMapEnc 4 l1)) = kh :=
    readVec_concat 8 kh _ (fun x hx => h64 ▸ hkh x hx)
  have hdK : (concatMapEnc 8 kh ++ (concatMapEnc 4 l0 ++ concatMapEnc 4 l1)).drop
      (8 * kh.length) = concatMapEnc 4 l0 ++ concatMapEnc 4 l1 :=
    drop_concatMapEnc 8 kh _
  have hr0 : readVec 4 m0 (concatMapEnc 4 l0 ++ concatMapEnc 4 l1) = l0 := by
    rw [← hL0]
    exact readVec_concat 4 l0 _ (fun x hx => h32 ▸ hl0 x hx)
  have hd0 : (concatMapEnc 4 l0 ++ concatMapEnc 4 l1).drop (4 * m0) =
      concatMapEnc 4 l1 := by
    rw [← hL0]
    exact drop_concatMapEnc 4 l0 _
  have hr1 : readVec 4 m1 (concatMapEnc 4 l1) = l1 := by
    rw [← hL1, ← List.append_nil (concatMapEnc 4 l1)]
    exact readVec_concat 4 l1 [] (fun x hx => h32 ▸ hl1 x hx)
  rw [hrK, hdK, hr0, hd0, hr1]

theorem placeAll_lengths (H : HashFam) (keys : List Str) (m1 : Nat)
    (bs : List indexBucket) : ∀ (st st' : PlaceState),
    placeAll H keys m1 bs st = some st' →
    st'.occ.length = st.occ.length ∧ st'.level1.length = st.level1.length ∧
    st'.level0.length = st.level0.length := by
  induction bs with
  | nil =>
    intro st st' h
    simp only [placeAll, Option.some.injEq] at h
    rw [← h]
    exact ⟨rfl, rfl, rfl⟩
  | cons b bs ih =>
    intro st st' h
    simp only [placeAll] at h
    split at h
    · simp at h
    · rename_i st₂ heq
      simp only [placeBucket] at heq
      split at heq
      · simp at heq
      · rename_i p seed occ₂ lvl₂ hfind
        simp only [Option.some.injEq] at heq
        subst heq
        obtain ⟨⟨lvlMid, hlm, htr⟩, _⟩ := findSeed_ok H keys m1 b.vals _ _ _ _ _ _ _ hfind
        have hlen₂ := trySeed_len H keys m1 seed b.vals _ _ _ _ _ (Or.inl htr)
        have := ih _ _ h
        simp only [] at this
        refine ⟨?_, ?_, ?_⟩
        · rw [this.1, hlen₂.1]
        · rw [this.2.1, hlen₂.2, hlm]
        · rw [this.2.2, List.length_set]

/-- C4: the codec round-trips every Table that Build produces: unmarshalling the
marshalled bytes succeeds (no error, no panic) and reproduces the Table, hence
the same answer on every query.  The bound on `level1Len` is the domain of a Go
`int` length: every length field a Go Table can hold is below 2^63, so no Table
the source can build is excluded. -/
theorem marshal_roundtrip (H : HashFam) (keys : List Str) (lf : ℚ) (T : Table)
    (hb : Build H keys lf = some T) (hsz : T.level1Len < 2 ^ 63) :
    ∃ T₂, UnmarshalBinary (MarshalBinary T) = .ok (some T₂) ∧
      ∀ (H₂ : HashFam) (s : Str), Lookup H₂ T₂ s = Lookup H₂ T s := by
  obtain ⟨st, hT, hdiv4, hNle, _, hpl⟩ := Build_elim H keys lf T hb
  have hf0 : T.level0 = st.level0 := by rw [hT]
  have hf1 : T.level1 = st.level1 := by rw [hT]
  have hfkh : T.keyHashes = keys.map fnv64a := by rw [hT]
  have hlen := placeAll_lengths H keys T.level1Len _ _ _ hpl
  simp only [initState, List.length_replicate] at hlen
  have hinitlvl : ∀ x ∈ (initState T.level0Len T.level1Len).level1, x < 2 ^ 32 := by
    intro x hx
    simp only [initState] at hx
    rw [List.eq_of_mem_replicate hx]
    norm_num
  have hinitl0 : ∀ x ∈ (initState T.level0Len T.level1Len).level0, x < 2 ^ 32 := by
    intro x hx
    simp only [initState] at hx
    rw [List.eq_of_mem_replicate hx]
    norm_num
  have hbound := placeAll_bound H keys T.level1Len _ _ _ hinitlvl hinitl0 hpl
  refine ⟨T, ?_, fun H₂ s => rfl⟩
  apply unmarshal_marshal
  · rw [hf0, hlen.2.2]
  · rw [hf1, hlen.2.1]
  · rw [hfkh, List.length_map]
    omega
  · omega
  · exact hsz
  · rw [hfkh]
    intro x hx
    obtain ⟨s₂, _, hs⟩ := List.mem_map.mp hx
    rw [← hs]
    exact fnv64a_lt s₂
  · rw [hf0]
    exact hbound.2
  · rw [hf1]
    exact hbound.1

theorem marshal_roundtrip_witness :
    ∃ T₂, UnmarshalBinary (MarshalBinary tbl4) = .ok (some T₂) ∧
      ∀ (H₂ : HashFam) (s : Str), Lookup H₂ T₂ s = Lookup H₂ tbl4 s :=
  marshal_roundtrip h4 k4 1 tbl4 (by decide) (by decide)

/-- C5 counterexample, refuting the claimed equivalence in both directions:
`d26` is a buffer whose total length (26) differs from the computed sum (25)
and on which UnmarshalBinary nevertheless succeeds — the source checks
`len(data) < sum`, not inequality, so longer buffers pass; `dOv` declares 2^61
key hashes, the `int`-wrapped sum is again 25, the validation passes, and the
decode panics (in Go already in `make([]uint64, 2^61)`) instead of returning
the error the claim requires for a buffer whose length differs from the true
computed sum. -/
theorem unmarshal_length_counterexample :
    UnmarshalBinary d26 = .ok (some ⟨[], [], 0, [], 0⟩) ∧
    d26.length = 26 ∧
    decodeLE 8 (d26.drop 1) = 0 ∧ decodeLE 8 (d26.drop 9) = 0 ∧
    decodeLE 8 (d26.drop 17) = 0 ∧
    d26.length ≠ 25 + 8 * decodeLE 8 (d26.drop 1) +
      4 * (decodeLE 8 (d26.drop 9) + decodeLE 8 (d26.drop 17)) ∧
    UnmarshalBinary dOv = .error () ∧
    dOv.length = 26 ∧ decodeLE 8 (dOv.drop 1) = 2 ^ 61 :=
  ⟨rfl, by decide, by decide, by decide, by decide, by decide, rfl, by decide,
    by decide⟩

/-- C5 as amended: an error is returned exactly under the source's own checks.
Fingerprint variant: buffer below the 25-byte header, version byte ≠ 1, or
buffer length below the `int`-wrapped total `(1+K+1+1)*8 + (m0+m1)*4 + 1` — so
a buffer longer than the true total is accepted with its trailing bytes
ignored, and a buffer that passes the check only through 64-bit wraparound
panics rather than erroring.  Bloom variant: the same three checks, or, once
they pass and the filter slice is in range, an error of the external filter
codec, which is propagated as the function's own error. -/
theorem unmarshal_error_iff :
    (∀ data : List Nat, UnmarshalBinary data = .ok none ↔
      (data.length < 25 ∨ data.getD 0 0 ≠ ver ∨
        (data.length : Int) < unmarshalSum data)) ∧
    (∀ (Φ : Type) (decF : List Nat → Option Φ) (data : List Nat),
      UnmarshalBinaryB decF data = .ok none ↔
        (data.length < 25 ∨ data.getD 0 0 ≠ ver ∨
          (data.length : Int) < unmarshalSumB data ∨
          (¬ (toInt64 (decodeLE 8 (data.drop 1)) < 0 ∨
              (data.length : Int) < 25 + toInt64 (decodeLE 8 (data.drop 1))) ∧
            decF ((data.drop 25).take (toInt64 (decodeLE 8 (data.drop 1))).toNat)
              = none))) := by
  constructor
  · intro data
    simp only [UnmarshalBinary]
    split
    · rename_i h
      simp [h]
    · rename_i h
      split
      · rename_i h2
        rw [List.getD_eq_getElem?_getD] at h2
        simp [h2]
      · rename_i h2
        rw [List.getD_eq_getElem?_getD] at h2
        split
        · rename_i h3
          simp [h3]
        · rename_i h3
          split
          · simp [h, h2, h3]
          · split
            · simp [h, h2, h3]
            · split
              · simp [h, h2, h3]
              · split
                · simp [h, h2, h3]
                · split
                  · simp [h, h2, h3]
                  · split
                    · simp [h, h2, h3]
                    · simp [h, h2, h3]
  · intro Φ decF data
    simp only [UnmarshalBinaryB]
    split
    · rename_i h
      simp [h]
    · rename_i h
      split
      · rename_i h2
        rw [List.getD_eq_getElem?_getD] at h2
        simp [h2]
      · rename_i h2
        rw [List.getD_eq_getElem?_getD] at h2
        split
        · rename_i h3
          simp [h3]
        · rename_i h3
          split
          · rename_i hp
            rw [List.drop_one] at hp
            simp [h, h2, h3]
            intro h1x h2x
            exfalso
            omega
          · rename_i hp
            rw [List.drop_one] at hp
            split
            · rename_i hdec
              rw [List.drop_one] at hdec
              simp [h, h2, h3]
              exact ⟨⟨by omega, by omega⟩, hdec⟩
            · rename_i F hdec
              rw [List.drop_one] at hdec
              split
              · simp [h, h2, h3, hdec]
              · split
                · simp [h, h2, h3, hdec]
                · split
                  · simp [h, h2, h3, hdec]
                  · split
                    · simp [h, h2, h3, hdec]
                    · simp [h, h2, h3, hdec]

/-! ### The Bloom variant's retry loop (C6) -/

theorem decayLF_measure_lt (lf : ℚ) (h : ¬ decayLF lf < mkRat 1 10) :
    (Int.floor (decayLF lf * 100)).toNat < (Int.floor (lf * 100)).toNat := by
  have hd : (lf.den : ℚ) ≠ 0 := Nat.cast_ne_zero.mpr lf.den_nz
  have key : (lf.num : ℚ) = lf * (lf.den : ℚ) := by
    have h1 := Rat.num_div_den lf
    rw [div_eq_iff hd] at h1
    exact h1
  have hd10 : (lf.den : ℚ) * 10 ≠ 0 := mul_ne_zero hd (by norm_num)
  have hdec : decayLF lf = lf * (9 / 10) := by
    rw [decayLF, Rat.mkRat_eq_div]
    push_cast
    rw [div_eq_iff hd10, key]
    ring
  have hml : (mkRat 1 10 : ℚ) = 1 / 10 := by
    rw [Rat.mkRat_eq_div]
    norm_num
  rw [hdec, hml] at h
  have h0 : (1 : ℚ) / 10 ≤ lf * (9 / 10) := not_lt.mp h
  have h1 : (1 : ℚ) / 9 ≤ lf := by linarith
  have h2 : lf * (9 / 10) * 100 + 1 ≤ lf * 100 := by linarith
  have h3 : Int.floor (lf * (9 / 10) * 100) < Int.floor (lf * 100) := by
    have h5 := Int.floor_le_floor h2
    rw [Int.floor_add_one] at h5
    omega
  have h4 : (0 : ℤ) ≤ Int.floor (lf * (9 / 10) * 100) := by
    apply Int.floor_nonneg.mpr
    linarith
  rw [hdec]
  omega

/-- C6: in the Bloom variant, when buildInternal gives up (a bucket exhausted the
seed-attempt cap it returns nil, the only nil path), Build retries with the load
factor multiplied by 0.9 while the result stays at least 0.1, and below 0.1
returns an error with no partial Table; on every non-panicking outcome the Table
is nil exactly when the error is non-nil. -/
theorem buildB_retry (Φ : Type) (H : HashFam) (keys : List Str) (F : Φ) :
    (∀ (lf : ℚ) (t : Option (TableB Φ)) (e : Option String),
      BuildB H keys F lf = .ok (t, e) → (t = none ↔ e ≠ none)) ∧
    (∀ lf : ℚ, buildInternalB H keys lf F = .ok none → ¬ decayLF lf < mkRat 1 10 →
      buildLoop H keys F lf = buildLoop H keys F (decayLF lf)) ∧
    (∀ lf : ℚ, buildInternalB H keys lf F = .ok none → decayLF lf < mkRat 1 10 →
      buildLoop H keys F lf = .ok (none, some "Failed creating table")) := by
  have main : ∀ (m : Nat) (lf : ℚ), (Int.floor (lf * 100)).toNat ≤ m →
      ∀ (t : Option (TableB Φ)) (e : Option String),
      buildLoop H keys F lf = .ok (t, e) → (t = none ↔ e ≠ none) := by
    intro m
    induction m with
    | zero =>
      intro lf hm t e hloop
      rw [buildLoop] at hloop
      split at hloop
      · simp at hloop
      · rename_i t₂ heq
        simp only [Except.ok.injEq, Prod.mk.injEq] at hloop
        rw [← hloop.1, ← hloop.2]
        simp
      · rename_i heq
        split at hloop
        · simp only [Except.ok.injEq, Prod.mk.injEq] at hloop
          rw [← hloop.1, ← hloop.2]
          simp
        · rename_i hge
          have := decayLF_measure_lt lf hge
          omega
    | succ m ih =>
      intro lf hm t e hloop
      rw [buildLoop] at hloop
      split at hloop
      · simp at hloop
      · rename_i t₂ heq
        simp only [Except.ok.injEq, Prod.mk.injEq] at hloop
        rw [← hloop.1, ← hloop.2]
        simp
      · rename_i heq
        split at hloop
        · simp only [Except.ok.injEq, Prod.mk.injEq] at hloop
          rw [← hloop.1, ← hloop.2]
          simp
        · rename_i hge
          have hlt := decayLF_measure_lt lf hge
          exact ih (decayLF lf) (by omega) t e hloop
  refine ⟨?_, ?_, ?_⟩
  · intro lf t e hb
    exact main _ (clampLF lf) (le_refl _) t e hb
  · intro lf hbi hge
    conv_lhs => rw [buildLoop]
    rw [hbi]
    simp only [dif_neg hge]
  · intro lf hbi hlt
    rw [buildLoop, hbi]
    simp only [dif_pos hlt]

theorem trySeedB_const_fail (m1 seed : Nat) (occ : List Bool) (lvl : List Nat)
    (hocc0 : 0 < occ.length) (hocc : occ.getD 0 false = false) :
    trySeedB hconst k2 m1 seed [0, 1] occ lvl [] [] =
      .fail occ (lvl.set 0 (0 % 2 ^ 32)) := by
  simp only [trySeedB, slotH, hconst, Nat.zero_mod]
  rw [if_neg (by rw [hocc]; simp)]
  rw [if_pos ?_]
  · have hclear : clearOcc ([] ++ [0]) (occ.set 0 true) = occ := by
      rw [List.nil_append, clearOcc_cons, List.set_set]
      show occ.set 0 false = occ
      exact set_of_getD occ 0 false hocc
    rw [hclear]
  · constructor
    · rw [getD_set_self occ true false hocc0]
    · decide

theorem findSeedB_const_none (m1 : Nat) (occ : List Bool)
    (hocc0 : 0 < occ.length) (hocc : occ.getD 0 false = false) :
    ∀ (k seed : Nat) (lvl : List Nat), maxSeedAttempts + 1 - seed ≤ k →
    findSeedB hconst k2 m1 [0, 1] seed occ lvl = none := by
  intro k
  induction k with
  | zero =>
    intro seed lvl hk
    rw [findSeedB]
    simp only [trySeedB_const_fail m1 seed occ lvl hocc0 hocc]
    rw [if_pos (by omega)]
  | succ k ih =>
    intro seed lvl hk
    rw [findSeedB]
    simp only [trySeedB_const_fail m1 seed occ lvl hocc0 hocc]
    split
    · rfl
    · rename_i hcap
      exact ih (seed + 1) _ (by omega)

theorem placeBucketB_none (H : HashFam) (keys : List Str) (m1 : Nat)
    (st : PlaceState) (b : indexBucket)
    (h : findSeedB H keys m1 b.vals 0 st.occ st.level1 = none) :
    placeBucketB H keys m1 st b = none := by
  unfold placeBucketB
  rw [h]

theorem placeAllB_cons_none (H : HashFam) (keys : List Str) (m1 : Nat)
    (b : indexBucket) (bs : List indexBucket) (st : PlaceState)
    (h : placeBucketB H keys m1 st b = none) :
    placeAllB H keys m1 (b :: bs) st = none := by
  unfold placeAllB
  rw [h]

theorem buildInternalB_const_11 (Φ : Type) (F : Φ) :
    buildInternalB hconst k2 (mkRat 11 100) F = .ok none := by
  have hfind := findSeedB_const_none 18 (List.replicate 18 false)
    (by decide) (by decide) (maxSeedAttempts + 1) 0 (List.replicate 18 0) (by omega)
  have hpb : placeBucketB hconst k2 18 (initState 4 18) ⟨0, [0, 1]⟩ = none := by
    apply placeBucketB_none
    have e1 : (⟨0, [0, 1]⟩ : indexBucket).vals = [0, 1] := rfl
    have e2 : (initState 4 18).occ = List.replicate 18 false := rfl
    have e3 : (initState 4 18).level1 = List.replicate 18 0 := rfl
    rw [e1, e2, e3]
    exact hfind
  have hpa := placeAllB_cons_none hconst k2 18 ⟨0, [0, 1]⟩ [] (initState 4 18) hpb
  simp only [buildInternalB]
  rw [if_neg (by decide)]
  rw [if_neg (by decide)]
  rw [show (goTruncDiv k2.length (mkRat 11 100)).toNat = 18 from by decide]
  rw [show (18 : Nat) / 4 = 4 from by norm_num]
  rw [show sortBySize (bucketList hconst k2 4) = [⟨0, [0, 1]⟩] from by decide]
  rw [hpa]

theorem buildInternalB_const_half (Φ : Type) (F : Φ) :
    buildInternalB hconst k2 (mkRat 1 2) F = .ok none := by
  have hfind := findSeedB_const_none 4 (List.replicate 4 false)
    (by decide) (by decide) (maxSeedAttempts + 1) 0 (List.replicate 4 0) (by omega)
  have hpb : placeBucketB hconst k2 4 (initState 1 4) ⟨0, [0, 1]⟩ = none := by
    apply placeBucketB_none
    have e1 : (⟨0, [0, 1]⟩ : indexBucket).vals = [0, 1] := rfl
    have e2 : (initState 1 4).occ = List.replicate 4 false := rfl
    have e3 : (initState 1 4).level1 = List.replicate 4 0 := rfl
    rw [e1, e2, e3]
    exact hfind
  have hpa := placeAllB_cons_none hconst k2 4 ⟨0, [0, 1]⟩ [] (initState 1 4) hpb
  simp only [buildInternalB]
  rw [if_neg (by decide)]
  rw [if_neg (by decide)]
  rw [show (goTruncDiv k2.length (mkRat 1 2)).toNat = 4 from by decide]
  rw [show (4 : Nat) / 4 = 1 from by norm_num]
  rw [show sortBySize (bucketList hconst k2 1) = [⟨0, [0, 1]⟩] from by decide]
  rw [hpa]

theorem buildB_retry_witness :
    buildLoop hconst k2 () (mkRat 11 100) = .ok (none, some "Failed creating table") ∧
    buildLoop hconst k2 () (mkRat 1 2) = buildLoop hconst k2 () (decayLF (mkRat 1 2)) ∧
    ((none : Option (TableB Unit)) = none ↔ some "Failed creating table" ≠ none) := by
  have h1 := (buildB_retry Unit hconst k2 ()).2.2 (mkRat 11 100)
    (buildInternalB_const_11 Unit ()) (by decide)
  have h2 := (buildB_retry Unit hconst k2 ()).2.1 (mkRat 1 2)
    (buildInternalB_const_half Unit ()) (by decide)
  have h3 : BuildB hconst k2 () (mkRat 11 100) =
      .ok (none, some "Failed creating table") := by
    rw [BuildB, show clampLF (mkRat 11 100) = mkRat 11 100 from by decide]
    exact h1
  exact ⟨h1, h2, (buildB_retry Unit hconst k2 ()).1 (mkRat 11 100) none
    (some "Failed creating table") h3⟩
